import Mathlib

/-!
Verification of the Box MCP server's core: the in-memory hierarchical store
(`InMemoryBoxClient`), the protocol dispatcher's tool-call validation
(`McpServer.callTool`) and the `box_save_documents` tool handler, shallowly
embedded in Lean.

Modelling conventions:
* JS strings are Lean `String`s; the JS string operations used by the source
  (`split`, `includes`, `startsWith`, `toLowerCase`) are re-implemented over
  `String.data` so that every definition evaluates by kernel reduction.
* A JS `Map` is an association list in insertion order: `set` on an existing
  key replaces in place, `set` on a fresh key appends, `delete` filters.
* `Buffer`s are byte lists (`List Nat`); `byteLength` is the list length.
* Wall-clock timestamps (`new Date().toISOString()`) are modelled by a
  `now : Nat` parameter threaded into every mutating operation.
* The recursive operations `updatePathsRecursively` and `deleteFolder`
  recurse through the parent-pointer graph, which nothing keeps acyclic, so
  they are embedded with an explicit fuel parameter; `none` means the
  recursion did not finish within the given fuel (for any fuel: divergence).
* Shared-link state and the AI endpoints of `InMemoryBoxClient` are not
  referenced by any verified property and are omitted from the state.
-/

namespace BoxMcp

/-! ## Decimal numerals

The store generates IDs via JS template literals `fld_${size+1}` /
`fil_${size+1}`; number-to-string conversion is `Nat.repr`.  Freshness
arguments need that distinct numbers print to distinct strings. -/

def charVal (c : Char) : Nat := c.toNat - '0'.toNat

def digitsVal (l : List Char) : Nat := l.foldl (fun a c => 10 * a + charVal c) 0

theorem charVal_digitChar {n : Nat} (h : n < 10) :
    charVal (Nat.digitChar n) = n := by
  interval_cases n <;> decide

theorem digitsVal_toDigitsCore (fuel : Nat) :
    ∀ (n : Nat) (ds : List Char), n < 10 ^ fuel →
      digitsVal (Nat.toDigitsCore 10 fuel n ds) =
        ds.foldl (fun a c => 10 * a + charVal c) n := by
  induction fuel with
  | zero =>
    intro n ds h
    simp only [pow_zero, Nat.lt_one_iff] at h
    subst h
    simp [Nat.toDigitsCore, digitsVal]
  | succ f ih =>
    intro n ds h
    by_cases hz : n / 10 = 0
    · have hn : n < 10 := by omega
      simp only [Nat.toDigitsCore, hz, if_pos]
      simp only [digitsVal, List.foldl_cons]
      rw [charVal_digitChar (Nat.mod_lt _ (by norm_num))]
      rw [Nat.mod_eq_of_lt hn]
      simp
    · simp only [Nat.toDigitsCore, hz, if_false]
      have hlt : n / 10 < 10 ^ f := by
        rw [Nat.div_lt_iff_lt_mul (by norm_num : 0 < 10)]
        calc n < 10 ^ (f + 1) := h
        _ = 10 ^ f * 10 := by ring
      rw [ih (n / 10) (Nat.digitChar (n % 10) :: ds) hlt]
      simp only [List.foldl_cons]
      rw [charVal_digitChar (Nat.mod_lt _ (by norm_num))]
      rw [Nat.div_add_mod n 10]

theorem digitsVal_toDigits (n : Nat) : digitsVal (Nat.toDigits 10 n) = n := by
  have hb : n < 10 ^ (n + 1) := by
    calc n < 10 ^ n := Nat.lt_pow_self (by norm_num) n
    _ ≤ 10 ^ (n + 1) := Nat.pow_le_pow_right (by norm_num) (Nat.le_succ n)
  simpa [digitsVal] using digitsVal_toDigitsCore (n + 1) n [] hb

theorem natRepr_injective : Function.Injective Nat.repr := by
  intro a b h
  have hdata : Nat.toDigits 10 a = Nat.toDigits 10 b := congrArg String.data h
  have := congrArg digitsVal hdata
  rwa [digitsVal_toDigits, digitsVal_toDigits] at this

theorem string_ext {a b : String} (h : a.data = b.data) : a = b := by
  cases a
  cases b
  exact congrArg String.mk h

/-- Appending to a fixed prefix is injective, so generated IDs
`"fld_" ++ Nat.repr k` are pairwise distinct for distinct `k`. -/
theorem prefixed_repr_injective (p : String) {a b : Nat}
    (h : p ++ Nat.repr a = p ++ Nat.repr b) : a = b := by
  have hd := congrArg String.data h
  simp only [String.data_append] at hd
  have := List.append_cancel_left hd
  exact natRepr_injective (string_ext this)

/-- The folder-ID template literal `` `fld_${size + 1}` ``. -/
def fldId (k : Nat) : String := "fld_" ++ Nat.repr k

/-- The file-ID template literal `` `fil_${size + 1}` ``. -/
def filId (k : Nat) : String := "fil_" ++ Nat.repr k

theorem fldId_inj {a b : Nat} (h : fldId a = fldId b) : a = b :=
  prefixed_repr_injective "fld_" h

theorem filId_inj {a b : Nat} (h : filId a = filId b) : a = b :=
  prefixed_repr_injective "fil_" h

theorem zero_ne_fldId (m : Nat) : "0" ≠ fldId m := by
  intro h
  have hd := congrArg String.data h
  rw [show ("0" : String).data = ['0'] from rfl] at hd
  rw [show (fldId m).data = ['f', 'l', 'd', '_'] ++ (Nat.repr m).data from rfl] at hd
  simp at hd

/-! ## JS string operations over `String.data` -/

/-- JS `String.prototype.split` with a single-character separator. -/
def splitChar (sep : Char) : List Char → List (List Char)
  | [] => [[]]
  | c :: rest =>
    if c = sep then [] :: splitChar sep rest
    else (c :: (splitChar sep rest).headI) :: (splitChar sep rest).tail

theorem splitChar_ne_nil (sep : Char) (l : List Char) : splitChar sep l ≠ [] := by
  cases l with
  | nil => simp [splitChar]
  | cons c rest =>
    simp only [splitChar]
    by_cases h : c = sep <;> simp [h]

theorem splitChar_append_sep (sep : Char) (x y : List Char) :
    splitChar sep (x ++ sep :: y) = splitChar sep x ++ splitChar sep y := by
  induction x with
  | nil => simp [splitChar]
  | cons c x' ih =>
    by_cases h : c = sep
    · simp [splitChar, h, ih]
    · have hne := splitChar_ne_nil sep x'
      cases hx : splitChar sep x' with
      | nil => exact absurd hx hne
      | cons a t =>
        simp only [List.cons_append, splitChar, List.append_eq]
        rw [if_neg h, if_neg h, ih, hx]
        simp

theorem splitChar_no_sep (sep : Char) (l : List Char) (h : sep ∉ l) :
    splitChar sep l = [l] := by
  induction l with
  | nil => rfl
  | cons c rest ih =>
    have hc : ¬ c = sep := fun hc => h (hc ▸ List.mem_cons_self c rest)
    have hr : sep ∉ rest := fun hr => h (List.mem_cons_of_mem c hr)
    simp [splitChar, hc, ih hr]

/-- JS `s.split(sep)` for a one-character separator, as `List String`. -/
def jsSplit (sep : Char) (s : String) : List String :=
  (splitChar sep s.data).map String.mk

/-- Path segmentation `path.split('/').filter(Boolean)` used throughout the
store. -/
def pathParts (s : String) : List String :=
  (jsSplit '/' s).filter (fun p => p ≠ "")

theorem mk_data_eta (s : String) : String.mk s.data = s := by
  cases s
  rfl

theorem pathParts_append (a b : String) :
    pathParts (a ++ "/" ++ b) = pathParts a ++ pathParts b := by
  unfold pathParts jsSplit
  have hdata : (a ++ "/" ++ b).data = a.data ++ '/' :: b.data := by
    simp only [String.data_append, List.append_assoc]
    rfl
  rw [hdata, splitChar_append_sep, List.map_append, List.filter_append]

theorem pathParts_single (n : String) (h1 : n ≠ "") (h2 : '/' ∉ n.data) :
    pathParts n = [n] := by
  unfold pathParts jsSplit
  rw [splitChar_no_sep '/' n.data h2]
  simp [mk_data_eta, h1]

theorem pathParts_empty : pathParts "" = [] := by decide

theorem pathParts_root : pathParts "/" = [] := by decide

/-- JS `String.prototype.toLowerCase` (ASCII range, which is all the source
ever compares). -/
def lowerStr (s : String) : String := String.mk (s.data.map Char.toLower)

/-- JS `hay.includes(needle)` on char lists. -/
def infixB (sub : List Char) : List Char → Bool
  | [] => decide (sub = [])
  | c :: rest => sub.isPrefixOf (c :: rest) || infixB sub rest

/-- JS `hay.includes(needle)`. -/
def strIncludes (hay sub : String) : Bool := infixB sub.data hay.data

/-- JS `s.startsWith(p)`. -/
def strStartsWith (s p : String) : Bool := p.data.isPrefixOf s.data

/-- JS `Array.prototype.join('/')`. -/
def joinSlash : List String → String
  | [] => ""
  | [x] => x
  | x :: y :: rest => x ++ "/" ++ joinSlash (y :: rest)

/-- Stable insertion of one element in front of the first element it is
`le`-before; `sortStable` below is therefore a stable sort, which is what
`Array.prototype.sort` guarantees. -/
def insertBy (le : α → α → Bool) (x : α) : List α → List α
  | [] => [x]
  | y :: ys => if le x y then x :: y :: ys else y :: insertBy le x ys

/-- Stable sort modelling JS `Array.prototype.sort` under a consistent
comparator. -/
def sortStable (le : α → α → Bool) (l : List α) : List α :=
  l.foldr (insertBy le) []

theorem length_insertBy (le : α → α → Bool) (x : α) (l : List α) :
    (insertBy le x l).length = l.length + 1 := by
  induction l with
  | nil => rfl
  | cons y ys ih =>
    simp only [insertBy]
    by_cases h : le x y = true <;> simp [h, ih]

theorem length_sortStable (le : α → α → Bool) (l : List α) :
    (sortStable le l).length = l.length := by
  induction l with
  | nil => rfl
  | cons y ys ih =>
    have hih := ih
    simp only [sortStable] at hih
    simp [sortStable, List.foldr_cons, length_insertBy, hih]

/-! ## UTF-8 and base64 byte codecs

`Buffer.from(s, 'utf8')`, `Buffer.from(s, 'base64')` and
`buf.toString('utf8')` as byte-list codecs. -/

def charUtf8 (c : Char) : List Nat :=
  let n := c.toNat
  if n < 0x80 then [n]
  else if n < 0x800 then [0xC0 + n / 64, 0x80 + n % 64]
  else if n < 0x10000 then
    [0xE0 + n / 4096, 0x80 + (n / 64) % 64, 0x80 + n % 64]
  else
    [0xF0 + n / 262144, 0x80 + (n / 4096) % 64, 0x80 + (n / 64) % 64,
     0x80 + n % 64]

def utf8Encode (s : String) : List Nat := (s.data.map charUtf8).flatten

def utf8DecodeAux : List Nat → List Char
  | [] => []
  | b :: rest =>
    if b < 0x80 then Char.ofNat b :: utf8DecodeAux rest
    else if b < 0xE0 then
      match rest with
      | b2 :: rest2 => Char.ofNat ((b - 0xC0) * 64 + (b2 - 0x80)) :: utf8DecodeAux rest2
      | [] => [Char.ofNat 0xFFFD]
    else if b < 0xF0 then
      match rest with
      | b2 :: b3 :: rest3 =>
        Char.ofNat ((b - 0xE0) * 4096 + (b2 - 0x80) * 64 + (b3 - 0x80)) :: utf8DecodeAux rest3
      | _ => [Char.ofNat 0xFFFD]
    else
      match rest with
      | b2 :: b3 :: b4 :: rest4 =>
        Char.ofNat ((b - 0xF0) * 262144 + (b2 - 0x80) * 4096 + (b3 - 0x80) * 64 + (b4 - 0x80)) :: utf8DecodeAux rest4
      | _ => [Char.ofNat 0xFFFD]

def utf8Decode (l : List Nat) : String := String.mk (utf8DecodeAux l)

def b64Val (c : Char) : Option Nat :=
  if 'A' ≤ c ∧ c ≤ 'Z' then some (c.toNat - 'A'.toNat)
  else if 'a' ≤ c ∧ c ≤ 'z' then some (c.toNat - 'a'.toNat + 26)
  else if '0' ≤ c ∧ c ≤ '9' then some (c.toNat - '0'.toNat + 52)
  else if c = '+' then some 62
  else if c = '/' then some 63
  else none

def b64Chunks : List Nat → List Nat
  | a :: b :: c :: d :: rest =>
    (a * 4 + b / 16) :: ((b % 16) * 16 + c / 4) :: ((c % 4) * 64 + d) :: b64Chunks rest
  | [a, b] => [a * 4 + b / 16]
  | [a, b, c] => [a * 4 + b / 16, (b % 16) * 16 + c / 4]
  | _ => []

/-- Node `Buffer.from(s, 'base64')`: non-alphabet characters (including `=`
padding) are skipped, then sextets are packed into bytes. -/
def base64Decode (s : String) : List Nat := b64Chunks (s.data.filterMap b64Val)

/-! ## Data model of `InMemoryBoxClient` (src/unnamed/part_007)

Folder and file records mirror the fields of the maps in the source; the
shared-link descriptor is not referenced by any verified claim and is left
out.  The JS `Map`s are association lists in insertion order. -/

structure FolderRec where
  id : String
  parentId : Option String
  name : String
  path : String
  description : Option String := none
  modified : Nat := 0
  deriving DecidableEq, Repr

structure FileRec where
  id : String
  parentId : String
  name : String
  size : Nat
  content : List Nat
  modified : Nat := 0
  deriving DecidableEq, Repr

inductive ItemKind where
  | file
  | folder
  deriving DecidableEq, Repr

structure Collab where
  itemType : ItemKind
  itemId : String
  email : String
  role : String
  deriving DecidableEq, Repr

structure Store where
  folders : List FolderRec
  files : List FileRec
  collaborations : List Collab
  deriving DecidableEq, Repr

/-- The constructor: a fresh store holds only the root folder `'0'` with
path `"/"`. -/
def initialStore (now : Nat) : Store :=
  { folders := [{ id := "0", parentId := none, name := "", path := "/", modified := now }],
    files := [], collaborations := [] }

/-- JS `Map.prototype.set`: replace in place at an existing key, append at a
fresh key. -/
def mapSetFolder (l : List FolderRec) (f : FolderRec) : List FolderRec :=
  if l.any (fun g => g.id == f.id) then
    l.map (fun g => if g.id = f.id then f else g)
  else l ++ [f]

def mapSetFile (l : List FileRec) (f : FileRec) : List FileRec :=
  if l.any (fun g => g.id == f.id) then
    l.map (fun g => if g.id = f.id then f else g)
  else l ++ [f]

/-- JS `Map.prototype.get`. -/
def lookupFolder (st : Store) (id : String) : Option FolderRec :=
  st.folders.find? (fun f => f.id == id)

def lookupFile (st : Store) (id : String) : Option FileRec :=
  st.files.find? (fun f => f.id == id)

/-! ## Store operations (translations of the source methods) -/

/-- Loop body of `ensureFolderPath`: walk the segments, creating missing
folders with IDs `fld_${folders.size + 1}`. -/
def ensureLoop (now : Nat) (descr : Option String) :
    Store → String → String → List String → String × Store
  | st, currentId, _, [] => (currentId, st)
  | st, currentId, currentPath, part :: rest =>
    let currentPath' := if currentPath ≠ "" then currentPath ++ "/" ++ part
                        else "/" ++ part
    match st.folders.find? (fun f => decide (f.parentId = some currentId ∧ f.name = part)) with
    | some existing => ensureLoop now descr st existing.id currentPath' rest
    | none =>
      let id := fldId (st.folders.length + 1)
      let newFolder : FolderRec :=
        { id := id, parentId := some currentId, name := part,
          path := currentPath', description := descr, modified := now }
      let st' : Store := { st with folders := mapSetFolder st.folders newFolder }
      ensureLoop now descr st' id currentPath' rest

/-- `ensureFolderPath(path, description?)`. -/
def ensureFolderPath (st : Store) (path : String) (descr : Option String)
    (now : Nat) : String × Store :=
  ensureLoop now descr st "0" "" (pathParts path)

/-- `checkFileExists(parentId, fileName)`. -/
def checkFileExists (st : Store) (parentId fileName : String) :
    Option (String × Nat) :=
  (st.files.find? (fun f => decide (f.parentId = parentId ∧ f.name = fileName))).map
    (fun f => (f.id, f.size))

/-- `uploadFile(parentId, fileName, content)`: upsert keyed by
`(parentId, fileName)`; a new file gets ID `fil_${files.size + 1}`. -/
def uploadFile (st : Store) (parentId fileName : String) (content : List Nat)
    (now : Nat) : (String × Nat) × Store :=
  match checkFileExists st parentId fileName with
  | some (id, _) =>
    ((id, content.length),
     { st with files := st.files.map (fun f =>
         if f.id = id then
           { f with content := content, size := content.length, modified := now }
         else f) })
  | none =>
    let id := filId (st.files.length + 1)
    let newFile : FileRec :=
      { id := id, parentId := parentId, name := fileName,
        size := content.length, content := content, modified := now }
    ((id, content.length), { st with files := mapSetFile st.files newFile })

/-- `getFileContent(fileId)`. -/
def getFileContent (st : Store) (fileId : String) : Except String (List Nat) :=
  match lookupFile st fileId with
  | none => .error "File not found"
  | some f => .ok f.content

/-- Loop of `resolveFolderPath`: walk the segments from the root by exact
name match. -/
def resolveLoop (st : Store) : String → List String → Option String
  | currentId, [] => some currentId
  | currentId, part :: rest =>
    match st.folders.find? (fun f => decide (f.parentId = some currentId ∧ f.name = part)) with
    | none => none
    | some next => resolveLoop st next.id rest

/-- `resolveFolderPath(path)`. -/
def resolveFolderPath (st : Store) (path : String) : Option String :=
  resolveLoop st "0" (pathParts path)

/-- The private `folderPath(id)` helper (`f?.path || '/'`). -/
def folderPathOf (st : Store) (id : String) : String :=
  match lookupFolder st id with
  | some f => if f.path = "" then "/" else f.path
  | none => "/"

/-- The file-touching loop at the end of `updatePathsRecursively`. -/
def touchFilesUnder (files : List FileRec) (folderId : String) (now : Nat) :
    List FileRec :=
  files.map (fun f => if f.parentId = folderId then { f with modified := now } else f)

/-- `updatePathsRecursively(folderId, newParentPath)`, with explicit fuel:
the JS recursion follows child links of the live map, which nothing keeps
acyclic.  `none` means the recursion did not finish within `fuel` nested
calls. -/
def updatePathsRec (now : Nat) : Nat → Store → String → String → Option Store
  | 0, _, _, _ => none
  | fuel + 1, st, folderId, newParentPath =>
    match lookupFolder st folderId with
    | none => some st
    | some folder =>
      let newPath := if newParentPath ≠ "" then newParentPath ++ "/" ++ folder.name
                     else "/" ++ folder.name
      let st1 : Store :=
        { st with folders := st.folders.map (fun g =>
            if g.id = folderId then { g with path := newPath, modified := now } else g) }
      let childIds := (st1.folders.filter (fun f => decide (f.parentId = some folderId))).map (fun f => f.id)
      match childIds.foldlM (fun acc cid => updatePathsRec now fuel acc cid newPath) st1 with
      | none => none
      | some st2 => some { st2 with files := touchFilesUnder st2.files folderId now }

/-- `moveFolder(folderId, newParentId)`: reparent, then recompute paths from
the *pre-move* path of the new parent.  `some (.error _)` is a JS throw,
`none` is divergence of the recursive path update. -/
def moveFolder (now fuel : Nat) (st : Store) (folderId newParentId : String) :
    Option (Except String Store) :=
  match lookupFolder st folderId, lookupFolder st newParentId with
  | some _, some parent =>
    let st1 : Store :=
      { st with folders := st.folders.map (fun g =>
          if g.id = folderId then { g with parentId := some newParentId } else g) }
    (updatePathsRec now fuel st1 folderId parent.path).map Except.ok
  | _, _ => some (.error "Folder or parent not found")

/-- `renameFolder(folderId, newName)`. -/
def renameFolder (now fuel : Nat) (st : Store) (folderId newName : String) :
    Option (Except String Store) :=
  match lookupFolder st folderId with
  | none => some (.error "Folder not found")
  | some folder =>
    let parent := match folder.parentId with
                  | some pid => lookupFolder st pid
                  | none => none
    let st1 : Store :=
      { st with folders := st.folders.map (fun g =>
          if g.id = folderId then { g with name := newName } else g) }
    let parentPath := match parent with
                      | some p => if p.path ≠ "" then p.path else ""
                      | none => ""
    (updatePathsRec now fuel st1 folderId parentPath).map Except.ok

/-- `deleteFolder(folderId, recursive = true)`: with `recursive` false, the
first child *folder* encountered throws `'Folder not empty'` before anything
is deleted; otherwise each child folder's subtree is deleted recursively,
then the folder's files, then the folder itself. -/
def deleteFolder : Nat → Store → String → Bool → Option (Except String Store)
  | 0, _, _, _ => none
  | fuel + 1, st, folderId, recursive =>
    let childIds := (st.folders.filter (fun f => decide (f.parentId = some folderId))).map (fun f => f.id)
    if ¬ recursive ∧ childIds ≠ [] then some (.error "Folder not empty")
    else
      match childIds.foldlM (fun acc cid =>
          match acc with
          | Except.error e => some (Except.error e)
          | Except.ok s => deleteFolder fuel s cid true) (Except.ok st) with
      | none => none
      | some (Except.error e) => some (.error e)
      | some (Except.ok st2) =>
        some (.ok { st2 with
          files := st2.files.filter (fun f => decide (¬ f.parentId = folderId)),
          folders := st2.folders.filter (fun f => decide (¬ f.id = folderId)) })

/-- `updateCollaborators`: for each update entry, find the index of the first
matching relation; `remove` truthy deletes it, else a truthy `role` replaces
the role in place; no match falls through silently. -/
def applyCollabUpdate (itemType : ItemKind) (itemId : String)
    (state : List Collab × List (String × Option String × Bool))
    (u : String × Option String × Option Bool) :
    List Collab × List (String × Option String × Bool) :=
  let (collabs, updated) := state
  let (email, role?, remove?) := u
  match collabs.findIdx? (fun c =>
      decide (c.itemType = itemType ∧ c.itemId = itemId ∧ c.email = email)) with
  | none => (collabs, updated)
  | some idx =>
    if remove?.getD false then
      (collabs.eraseIdx idx, updated ++ [(email, none, true)])
    else
      match role? with
      | some role =>
        if role ≠ "" then
          (match collabs.get? idx with
           | some c => collabs.set idx { c with role := role }
           | none => collabs,
           updated ++ [(email, some role, false)])
        else (collabs, updated)
      | none => (collabs, updated)

/-- `updateCollaborators({itemType, itemId, updates})`; the returned list
mirrors the JS `updated` array (`email`, the new role if any, and whether
the entry was a removal). -/
def updateCollaborators (st : Store) (itemType : ItemKind) (itemId : String)
    (updates : List (String × Option String × Option Bool)) :
    (List (String × Option String × Bool)) × Store :=
  let (collabs, updated) :=
    updates.foldl (applyCollabUpdate itemType itemId) (st.collaborations, [])
  (updated, { st with collaborations := collabs })

/-! ## `searchContent` -/

structure SearchParams where
  query : Option String := none
  type : Option String := none
  extensions : Option (List String) := none
  folders : Option (List String) := none
  includeContent : Option Bool := none
  includeTrashed : Option Bool := none
  limit : Option Nat := none
  sortBy : Option String := none
  direction : Option String := none
  deriving DecidableEq, Repr

structure SearchEntry where
  id : String
  type : String
  name : String
  path : String
  size : Option Nat := none
  modified : Nat := 0
  deriving DecidableEq, Repr

/-- `params.type && params.type !== 'all' ? params.type : undefined`
(`''` is falsy). -/
def wantTypeOf (params : SearchParams) : Option String :=
  match params.type with
  | some t => if t ≠ "" ∧ t ≠ "all" then some t else none
  | none => none

/-- The ancestor-path set: each entry of `params.folders` resolved to an ID,
unresolvable paths skipped. -/
def inFoldersOf (st : Store) (params : SearchParams) : List String :=
  (params.folders.getD []).foldl (fun acc p =>
    match resolveFolderPath st p with
    | some id => if id ∈ acc then acc else acc ++ [id]
    | none => acc) []

/-- `if (wantType && wantType !== kind) continue`. -/
def skipForWant (wantType : Option String) (kind : String) : Bool :=
  match wantType with
  | some w => w != kind
  | none => false

/-- The folder scan of `searchContent`. -/
def searchFolderEntries (st : Store) (q : String) (wantType : Option String)
    (inFolders : List String) : List SearchEntry :=
  st.folders.filterMap (fun f =>
    if f.id = "0" then none
    else if skipForWant wantType "folder" then none
    else
      let matchQuery := if q ≠ "" then strIncludes (lowerStr f.name) q else true
      let within := if inFolders ≠ [] then
          inFolders.any (fun ancestor => strStartsWith f.path (folderPathOf st ancestor))
        else true
      if matchQuery ∧ within then
        some { id := f.id, type := "folder", name := f.name, path := f.path,
               modified := f.modified }
      else none)

/-- The extension of a file name: `name.split('.').pop().toLowerCase()` when
the name contains a dot, else `''`. -/
def extOf (name : String) : String :=
  if strIncludes name "." then lowerStr ((jsSplit '.' name).getLastD "") else ""

/-- The file scan of `searchContent`. -/
def searchFileEntries (st : Store) (q : String) (wantType : Option String)
    (extSet : List String) (inFolders : List String) (includeContent : Bool) :
    List SearchEntry :=
  st.files.filterMap (fun file =>
    if skipForWant wantType "file" then none
    else
      let fp := folderPathOf st file.parentId
      let path := (if fp = "/" then "" else fp) ++ "/" ++ file.name
      if extSet ≠ [] ∧ ¬ extSet.contains (extOf file.name) then none
      else
        let within := if inFolders ≠ [] then
            inFolders.any (fun ancestor => strStartsWith path (folderPathOf st ancestor))
          else true
        let matchQuery := if q ≠ "" then
            (strIncludes (lowerStr file.name) q ||
             (includeContent && strIncludes (lowerStr (utf8Decode file.content)) q)) = true
          else True
        if matchQuery ∧ within then
          some { id := file.id, type := "file", name := file.name, path := path,
                 size := some file.size, modified := file.modified }
        else none)

/-- `searchContent(params)`: scan folders then files, optionally sort by
modification time (the code always sorts descending), return the total
match count and the first `limit` entries (`limit || 20`). -/
def searchContent (st : Store) (params : SearchParams) :
    Nat × List SearchEntry :=
  let q := lowerStr (params.query.getD "")
  let wantType := wantTypeOf params
  let extSet := (params.extensions.getD []).map lowerStr
  let inFolders := inFoldersOf st params
  let entries := searchFolderEntries st q wantType inFolders ++
    searchFileEntries st q wantType extSet inFolders (params.includeContent.getD false)
  let sorted := if params.sortBy = some "modified_at" then
      sortStable (fun a b => b.modified ≤ a.modified) entries
    else entries
  let limit := match params.limit with
               | some n => if n ≠ 0 then n else 20
               | none => 20
  (sorted.length, sorted.take limit)

/-- `addCollaborators`: appends one relation per entry, without
deduplication. -/
def addCollaborators (st : Store) (itemType : ItemKind) (itemId : String)
    (collaborators : List (String × String)) :
    (List (String × String)) × Store :=
  (collaborators,
   { st with collaborations := st.collaborations ++
       collaborators.map (fun (email, role) =>
         { itemType := itemType, itemId := itemId, email := email, role := role }) })

/-! ## Protocol dispatcher: `McpServer.callTool` (src/unnamed/part_006)

JSON values and a JSON-Schema fragment (required properties plus per-property
type constraints), enough to express the tool input schemas exercised by the
claims.  The Ajv validator is third-party code; it is modelled from its
configuration in the source, `new Ajv({ allErrors: true, strict: false })`:
with `allErrors` every violation is collected, and each error carries an
`instancePath` and a `message`. -/

inductive Json where
  | null
  | bool (b : Bool)
  | num (n : Int)
  | str (s : String)
  | arr (items : List Json)
  | obj (fields : List (String × Json))

inductive JsonType where
  | string
  | number
  | boolean
  | object
  | array
  deriving DecidableEq, Repr

def typeName : JsonType → String
  | .string => "string"
  | .number => "number"
  | .boolean => "boolean"
  | .object => "object"
  | .array => "array"

def typeOk : JsonType → Json → Bool
  | .string, .str _ => true
  | .number, .num _ => true
  | .boolean, .bool _ => true
  | .object, .obj _ => true
  | .array, .arr _ => true
  | _, _ => false

structure JsonSchema where
  required : List String := []
  propTypes : List (String × JsonType) := []
  deriving DecidableEq, Repr

structure ValError where
  instancePath : String
  message : String
  deriving DecidableEq, Repr

def getField (fields : List (String × Json)) (k : String) : Option Json :=
  (fields.find? (fun p => p.1 == k)).map (fun p => p.2)

/-- Validation with `allErrors`: a non-object argument is a type violation;
an object yields one error per missing required property and one per
wrongly-typed present property. -/
def validate (schema : JsonSchema) (j : Json) : List ValError :=
  match j with
  | .obj fields =>
    (schema.required.filter (fun r => (getField fields r).isNone)).map
      (fun r => { instancePath := "", message := "must have required property " ++ r })
    ++ schema.propTypes.filterMap (fun (k, t) =>
      match getField fields k with
      | some v =>
        if typeOk t v then none
        else some { instancePath := "/" ++ k, message := "must be " ++ typeName t }
      | none => none)
  | _ => [{ instancePath := "", message := "must be object" }]

structure ToolResult where
  isError : Bool := false
  text : String := ""
  errors : List String := []
  deriving DecidableEq, Repr

structure ToolDef where
  name : String
  inputSchema : Option JsonSchema := none
  handler : Json → Store → ToolResult × Store

/-- `${e.instancePath || '(root)'} ${e.message}`. -/
def formatErr (e : ValError) : String :=
  (if e.instancePath = "" then "(root)" else e.instancePath) ++ " " ++ e.message

def joinLines : List String → String
  | [] => ""
  | [x] => x
  | x :: y :: rest => x ++ "\n" ++ joinLines (y :: rest)

def validationErrorResult (toolName : String) (errs : List String) : ToolResult :=
  { isError := true,
    text := "Invalid arguments for " ++ toolName ++ ":\n" ++ joinLines errs,
    errors := errs }

/-- `args ?? {}`. -/
def orEmptyObj : Json → Json
  | Json.null => Json.obj []
  | a => a

/-- `McpServer.callTool(name, args)`: unknown tool throws; a schema-carrying
tool validates first and returns the enumerated violations without touching
the handler; otherwise the handler runs on `args ?? {}`. -/
def callTool (tools : List ToolDef) (name : String) (args : Json) (st : Store) :
    Except String (ToolResult × Store) :=
  match tools.find? (fun t => t.name == name) with
  | none => .error ("Unknown tool: " ++ name)
  | some tool =>
    match tool.inputSchema with
    | some schema =>
      let errs := (validate schema args).map formatErr
      if errs ≠ [] then .ok (validationErrorResult tool.name errs, st)
      else .ok (tool.handler (orEmptyObj args) st)
    | none => .ok (tool.handler (orEmptyObj args) st)

/-! ## The `box_save_documents` handler (src/src/tools/saveDocuments.ts) -/

structure SaveDoc where
  path : String
  content : Option String := none
  deriving DecidableEq, Repr

structure SaveOptions where
  overwrite : Option Bool := none
  createFolders : Option Bool := none
  deriving DecidableEq, Repr

structure SaveArgs where
  documents : List SaveDoc := []
  options : Option SaveOptions := none
  deriving DecidableEq, Repr

/-- `parsePath`: split on `/`, the last segment is the file name, the rest
(minus empty segments) re-joined is the folder path. -/
def parsePath (p : String) : String × String :=
  let parts := jsSplit '/' p
  let fileName := parts.getLastD ""
  let folderPath := joinSlash (parts.dropLast.filter (fun s => s ≠ ""))
  (folderPath, fileName)

/-- `s.split('base64,')`, index 1: the segment after the first occurrence. -/
def upToSeq (sep : List Char) : List Char → List Char
  | [] => []
  | c :: rest => if sep.isPrefixOf (c :: rest) then [] else c :: upToSeq sep rest

def afterSeq (sep : List Char) : List Char → List Char
  | [] => []
  | c :: rest =>
    if sep.isPrefixOf (c :: rest) then (c :: rest).drop sep.length
    else afterSeq sep rest

/-- `getContent(doc)`: base64 data URLs are decoded, plain strings are read
as UTF-8, anything else throws `'No content provided'`. -/
def getContent (content? : Option String) : Except String (List Nat) :=
  match content? with
  | some s =>
    if strIncludes s "base64," then
      let base64Data := String.mk (upToSeq "base64,".data (afterSeq "base64,".data s.data))
      .ok (base64Decode base64Data)
    else .ok (utf8Encode s)
  | none => .error "No content provided"

structure SaveItemResult where
  path : String
  success : Bool
  error : Option String := none
  fileId : Option String := none
  size : Option Nat := none
  deriving DecidableEq, Repr

/-- One iteration of the `for (const doc of args.documents)` loop, with the
surrounding `try`/`catch` folded into error entries. -/
def saveDocItem (now : Nat) (overwrite createFolders : Bool) (st : Store)
    (doc : SaveDoc) : SaveItemResult × Store :=
  let (folderPath, fileName) := parsePath doc.path
  if fileName = "" then
    ({ path := doc.path, success := false, error := some "Missing filename in path" }, st)
  else
    let (parentId, st1) :=
      if folderPath ≠ "" ∧ createFolders then ensureFolderPath st folderPath none now
      else ("0", st)
    match getContent doc.content with
    | .error e => ({ path := doc.path, success := false, error := some e }, st1)
    | .ok content =>
      if ¬ overwrite ∧ (checkFileExists st1 parentId fileName).isSome then
        ({ path := doc.path, success := false, error := some "File already exists" }, st1)
      else
        let ((id, size), st2) := uploadFile st1 parentId fileName content now
        ({ path := doc.path, success := true, fileId := some id, size := some size }, st2)

structure SaveResult where
  success : Bool
  saved : Nat
  failed : Nat
  results : List SaveItemResult
  deriving DecidableEq, Repr

/-- The `box_save_documents` handler: every document is processed in order,
results are collected, and the aggregate reports
`success = results.every(r => r.success)`, `saved`/`failed` as the counts. -/
def saveStep (now : Nat) (overwrite createFolders : Bool)
    (acc : List SaveItemResult × Store) (doc : SaveDoc) :
    List SaveItemResult × Store :=
  let (r, s) := saveDocItem now overwrite createFolders acc.2 doc
  (acc.1 ++ [r], s)

def saveDocuments (st : Store) (args : SaveArgs) (now : Nat) :
    SaveResult × Store :=
  let overwrite := (args.options.bind (fun o => o.overwrite)).getD false
  let createFolders := (args.options.bind (fun o => o.createFolders)).getD true
  let (results, st') := args.documents.foldl (saveStep now overwrite createFolders) ([], st)
  ({ success := results.all (fun r => r.success),
     saved := (results.filter (fun r => r.success)).length,
     failed := (results.filter (fun r => ! r.success)).length,
     results := results }, st')

/-! ## Canonical generated IDs -/

/-- Canonical file IDs: every file ID is `fil_k` for some `1 ≤ k ≤ size`, as
in every store reachable without `deleteFolder`. -/
def fileIdsCanonicalB (st : Store) : Bool :=
  st.files.all (fun f => (List.range (st.files.length + 1)).any
    (fun k => decide (1 ≤ k) && f.id == filId k))

/-- Canonical folder IDs: the root `'0'` plus `fld_k` for `1 ≤ k ≤ size`
(creation numbers the first folder `fld_2` because the root counts towards
the size, so reachable stores even satisfy `2 ≤ k`). -/
def folderIdsCanonicalB (st : Store) : Bool :=
  st.folders.all (fun f => f.id == "0" ||
    (List.range (st.folders.length + 1)).any
      (fun k => decide (1 ≤ k) && f.id == fldId k))

theorem fresh_file_id {st : Store} (hc : fileIdsCanonicalB st = true) :
    ∀ f ∈ st.files, f.id ≠ filId (st.files.length + 1) := by
  intro f hf heq
  have := (List.all_eq_true.mp hc) f hf
  simp only [List.any_eq_true, List.mem_range, Bool.and_eq_true, decide_eq_true_eq,
    beq_iff_eq] at this
  obtain ⟨k, hk, _, hid⟩ := this
  rw [heq] at hid
  have := filId_inj hid
  omega

theorem fresh_folder_id {st : Store} (hc : folderIdsCanonicalB st = true) :
    ∀ f ∈ st.folders, f.id ≠ fldId (st.folders.length + 1) := by
  intro f hf heq
  have := (List.all_eq_true.mp hc) f hf
  simp only [Bool.or_eq_true, beq_iff_eq, List.any_eq_true, List.mem_range,
    Bool.and_eq_true, decide_eq_true_eq] at this
  rcases this with h0 | ⟨k, hk, hk2, hid⟩
  · exact zero_ne_fldId _ (h0 ▸ heq)
  · rw [heq] at hid
    have := fldId_inj hid
    omega

/-- `mapSetFile` on a fresh ID appends. -/
theorem mapSetFile_fresh {l : List FileRec} {f : FileRec}
    (h : ∀ g ∈ l, g.id ≠ f.id) : mapSetFile l f = l ++ [f] := by
  have hany : l.any (fun g => g.id == f.id) = false := by
    simp only [List.any_eq_false]
    intro g hg
    simp [h g hg]
  simp [mapSetFile, hany]

theorem mapSetFolder_fresh {l : List FolderRec} {f : FolderRec}
    (h : ∀ g ∈ l, g.id ≠ f.id) : mapSetFolder l f = l ++ [f] := by
  have hany : l.any (fun g => g.id == f.id) = false := by
    simp only [List.any_eq_false]
    intro g hg
    simp [h g hg]
  simp [mapSetFolder, hany]

/-! ## Claim C4: `uploadFile` upsert semantics -/

/-- C4: for every `(parentId, fileName)`: when a file of that name exists
under that parent, `uploadFile` answers with the existing ID and the new byte
length, stores the updated content/size under that same ID, leaves every
file with a different ID and all folders unchanged, and adds no file; when
no such file exists it answers with the generated ID
`fil_${files.size + 1}` and `size = content.byteLength`, and (provided that
generated ID is fresh, cf. C10) appends exactly the new record. -/
theorem c4_uploadFile_upsert (st : Store) (parentId fileName : String)
    (content : List Nat) (now : Nat) :
    (∀ id sz, checkFileExists st parentId fileName = some (id, sz) →
      (uploadFile st parentId fileName content now).1 = (id, content.length) ∧
      (∃ f0 ∈ st.files, f0.id = id ∧ f0.parentId = parentId ∧ f0.name = fileName ∧
        { f0 with content := content, size := content.length, modified := now } ∈
          (uploadFile st parentId fileName content now).2.files) ∧
      (∀ g ∈ st.files, g.id ≠ id →
        g ∈ (uploadFile st parentId fileName content now).2.files) ∧
      (uploadFile st parentId fileName content now).2.files.length = st.files.length ∧
      (uploadFile st parentId fileName content now).2.folders = st.folders) ∧
    (checkFileExists st parentId fileName = none →
      (uploadFile st parentId fileName content now).1 =
        (filId (st.files.length + 1), content.length) ∧
      ((∀ g ∈ st.files, g.id ≠ filId (st.files.length + 1)) →
        (uploadFile st parentId fileName content now).2.files =
          st.files ++ [{ id := filId (st.files.length + 1), parentId := parentId,
                         name := fileName, size := content.length,
                         content := content, modified := now }])) := by
  constructor
  · intro id sz h
    obtain ⟨f0, hfind, hpair⟩ := Option.map_eq_some'.mp h
    have hid : f0.id = id := congrArg Prod.fst hpair
    have hmem : f0 ∈ st.files := List.mem_of_find?_eq_some hfind
    have hpred := List.find?_some hfind
    simp only [decide_eq_true_eq] at hpred
    have hgoal : uploadFile st parentId fileName content now =
        ((id, content.length),
         { st with files := st.files.map (fun f =>
             if f.id = id then
               { f with content := content, size := content.length, modified := now }
             else f) }) := by
      simp only [uploadFile, h]
    rw [hgoal]
    refine ⟨rfl, ⟨f0, hmem, hid, hpred.1, hpred.2, ?_⟩, ?_, ?_, rfl⟩
    · exact List.mem_map.mpr ⟨f0, hmem, by simp [hid]⟩
    · intro g hg hne
      exact List.mem_map.mpr ⟨g, hg, by simp [hne]⟩
    · simp
  · intro h
    have hgoal : uploadFile st parentId fileName content now =
        ((filId (st.files.length + 1), content.length),
         ⟨st.folders,
          mapSetFile st.files ⟨filId (st.files.length + 1), parentId, fileName,
            content.length, content, now⟩,
          st.collaborations⟩) := by
      simp only [uploadFile, h]
    rw [hgoal]
    refine ⟨rfl, fun hfresh => ?_⟩
    exact mapSetFile_fresh (fun g hg => hfresh g hg)

def c4DemoStore : Store :=
  { folders := [{ id := "0", parentId := none, name := "", path := "/" }],
    files := [{ id := "fil_1", parentId := "0", name := "b.txt", size := 1,
                content := [1], modified := 0 }],
    collaborations := [] }

theorem c4_uploadFile_upsert_witness :
    (uploadFile c4DemoStore "0" "b.txt" [9, 9] 7).1 = ("fil_1", 2) ∧
    (uploadFile c4DemoStore "0" "new.txt" [9, 9, 9] 7).1 = ("fil_2", 3) := by
  constructor
  · have h := (c4_uploadFile_upsert c4DemoStore "0" "b.txt" [9, 9] 7).1
      "fil_1" 1 (by decide)
    exact h.1
  · have h := (c4_uploadFile_upsert c4DemoStore "0" "new.txt" [9, 9, 9] 7).2
      (by decide)
    exact h.1

/-! ## Claim C6: search totalCount and extension filter -/

/-- Spec formulation of a folder match (section 4.1 `search`): the root is
never reported, the type filter must permit folders, the name must contain
the query case-insensitively (or there is no query), and with ancestor
paths given the folder path must extend one of them. -/
def specFolderMatch (st : Store) (params : SearchParams) (f : FolderRec) : Bool :=
  f.id != "0" &&
  !(skipForWant (wantTypeOf params) "folder") &&
  (lowerStr (params.query.getD "") == "" ||
    strIncludes (lowerStr f.name) (lowerStr (params.query.getD ""))) &&
  ((inFoldersOf st params).isEmpty ||
    (inFoldersOf st params).any (fun a => strStartsWith f.path (folderPathOf st a)))

/-- Spec formulation of a file match: the type filter must permit files, the
extension (the part after the last dot) must be in the allowed set when one
is given, the name — or with `includeContent` the decoded content — must
contain the query, and with ancestor paths given the derived file path must
extend one of them. -/
def specFileMatch (st : Store) (params : SearchParams) (file : FileRec) : Bool :=
  !(skipForWant (wantTypeOf params) "file") &&
  (((params.extensions.getD []).map lowerStr).isEmpty ||
    ((params.extensions.getD []).map lowerStr).contains (extOf file.name)) &&
  (lowerStr (params.query.getD "") == "" ||
    strIncludes (lowerStr file.name) (lowerStr (params.query.getD "")) ||
    (params.includeContent.getD false &&
      strIncludes (lowerStr (utf8Decode file.content)) (lowerStr (params.query.getD "")))) &&
  ((inFoldersOf st params).isEmpty ||
    (inFoldersOf st params).any (fun a =>
      strStartsWith ((if folderPathOf st file.parentId = "/" then ""
                      else folderPathOf st file.parentId) ++ "/" ++ file.name)
        (folderPathOf st a)))

/-- `params.limit || 20`. -/
def limitOf (params : SearchParams) : Nat :=
  match params.limit with
  | some n => if n ≠ 0 then n else 20
  | none => 20

/-- The entry list built by `searchContent` before sorting/truncation. -/
def searchEntriesOf (st : Store) (params : SearchParams) : List SearchEntry :=
  searchFolderEntries st (lowerStr (params.query.getD "")) (wantTypeOf params)
    (inFoldersOf st params) ++
  searchFileEntries st (lowerStr (params.query.getD "")) (wantTypeOf params)
    ((params.extensions.getD []).map lowerStr) (inFoldersOf st params)
    (params.includeContent.getD false)

/-- The entry list after the optional `modified_at` sort. -/
def sortedEntriesOf (st : Store) (params : SearchParams) : List SearchEntry :=
  if params.sortBy = some "modified_at" then
    sortStable (fun a b => b.modified ≤ a.modified) (searchEntriesOf st params)
  else searchEntriesOf st params

theorem searchContent_eq (st : Store) (params : SearchParams) :
    searchContent st params =
      ((sortedEntriesOf st params).length,
       (sortedEntriesOf st params).take (limitOf params)) := rfl

theorem length_sortedEntriesOf (st : Store) (params : SearchParams) :
    (sortedEntriesOf st params).length = (searchEntriesOf st params).length := by
  unfold sortedEntriesOf
  by_cases h : params.sortBy = some "modified_at" <;>
    simp [h, length_sortStable]

theorem length_searchFolderEntries (st : Store) (params : SearchParams) :
    (searchFolderEntries st (lowerStr (params.query.getD "")) (wantTypeOf params)
      (inFoldersOf st params)).length =
    st.folders.countP (fun f => specFolderMatch st params f) := by
  unfold searchFolderEntries
  rw [List.length_filterMap_eq_countP]
  apply List.countP_congr
  intro f _
  by_cases h0 : f.id = "0"
  · simp [h0, specFolderMatch]
  · by_cases hskip : skipForWant (wantTypeOf params) "folder"
    · simp [h0, hskip, specFolderMatch]
    · by_cases hq : lowerStr (params.query.getD "") = "" <;>
        by_cases hin : inFoldersOf st params = [] <;>
          simp [h0, hskip, hq, hin, specFolderMatch, List.isEmpty_iff]

theorem length_searchFileEntries (st : Store) (params : SearchParams) :
    (searchFileEntries st (lowerStr (params.query.getD "")) (wantTypeOf params)
      ((params.extensions.getD []).map lowerStr) (inFoldersOf st params)
      (params.includeContent.getD false)).length =
    st.files.countP (fun f => specFileMatch st params f) := by
  unfold searchFileEntries
  rw [List.length_filterMap_eq_countP]
  apply List.countP_congr
  intro f _
  by_cases hskip : skipForWant (wantTypeOf params) "file"
  · simp [hskip, specFileMatch]
  · by_cases hex : ((params.extensions.getD []).map lowerStr) = [] <;>
      by_cases hcont : ((params.extensions.getD []).map lowerStr).contains (extOf f.name) = true <;>
        by_cases hq : lowerStr (params.query.getD "") = "" <;>
          by_cases hin : inFoldersOf st params = [] <;>
            simp_all [specFileMatch, List.isEmpty_iff]

/-- C6: for every store and search call, `totalCount` is the number of all
matching folders plus all matching files (characterised by the independent
match predicates above) before truncation, the returned page holds
`min limit totalCount` entries (hence at most `limit`), and in the concrete
scenario of the spec, searching `"alpha"` with extension filter `["txt"]`
over a store with `alpha.txt` and `alpha.pdf` returns `totalCount = 1` and
exactly the `alpha.txt` entry. -/
theorem c6_search_contract (st : Store) (params : SearchParams) :
    (searchContent st params).1 =
      st.folders.countP (fun f => specFolderMatch st params f) +
      st.files.countP (fun f => specFileMatch st params f) ∧
    (searchContent st params).2.length = min (limitOf params) (searchContent st params).1 ∧
    searchContent
      ⟨[⟨"0", none, "", "/", none, 0⟩],
       [⟨"fil_1", "0", "alpha.txt", 3, [97, 97, 97], 1⟩,
        ⟨"fil_2", "0", "alpha.pdf", 3, [98, 98, 98], 2⟩],
       []⟩
      { query := some "alpha", extensions := some ["txt"] } =
      (1, [⟨"fil_1", "file", "alpha.txt", "/alpha.txt", some 3, 1⟩]) := by
  refine ⟨?_, ?_, ?_⟩
  · rw [searchContent_eq]
    simp only [length_sortedEntriesOf, searchEntriesOf, List.length_append,
      length_searchFolderEntries, length_searchFileEntries]
  · rw [searchContent_eq]
    simp only [List.length_take, length_sortedEntriesOf]
  · decide

/-! ## Claim C8: `updateCollaborators` affects only the first match -/

theorem findIdx?_first {p : α → Bool} :
    ∀ (pre : List α) (c : α) (post : List α), (∀ d ∈ pre, p d = false) →
      p c = true → (pre ++ c :: post).findIdx? p = some pre.length := by
  intro pre
  induction pre with
  | nil =>
    intro c post _ hc
    simp [List.findIdx?_cons, hc]
  | cons d pre ih =>
    intro c post hpre hc
    have hd : p d = false := hpre d (List.mem_cons_self d pre)
    have := ih c post (fun x hx => hpre x (List.mem_cons_of_mem d hx)) hc
    simp [List.findIdx?_cons, hd, this]

theorem findIdx?_none_of_all {p : α → Bool} :
    ∀ (l : List α), (∀ d ∈ l, p d = false) → l.findIdx? p = none := by
  intro l
  induction l with
  | nil => intro _; rfl
  | cons d l ih =>
    intro h
    have hd : p d = false := h d (List.mem_cons_self d l)
    simp [List.findIdx?_cons, hd, ih (fun x hx => h x (List.mem_cons_of_mem d hx))]

theorem eraseIdx_at_length : ∀ (pre : List α) (c : α) (post : List α),
    (pre ++ c :: post).eraseIdx pre.length = pre ++ post := by
  intro pre
  induction pre with
  | nil => intro c post; rfl
  | cons d pre ih => intro c post; simp [List.eraseIdx, ih]

theorem set_at_length : ∀ (pre : List α) (c x : α) (post : List α),
    (pre ++ c :: post).set pre.length x = pre ++ x :: post := by
  intro pre
  induction pre with
  | nil => intro c x post; rfl
  | cons d pre ih => intro c x post; simp [List.set, ih]

theorem get?_at_length : ∀ (pre : List α) (c : α) (post : List α),
    (pre ++ c :: post).get? pre.length = some c := by
  intro pre
  induction pre with
  | nil => intro c post; rfl
  | cons d pre ih => intro c post; simpa [List.get?] using ih c post

/-- C8: for a call with a single update entry: with no matching relation the
entry is silently skipped (empty `updated`, store untouched); with a first
match at position `pre.length`, a truthy `remove` deletes exactly that
relation and a truthy `role` replaces exactly that relation's role, the
relations in `pre` and `post` being untouched in both cases. -/
theorem c8_updateCollaborators_first_match (st : Store) (itemType : ItemKind)
    (itemId email : String) (role? : Option String) (remove? : Option Bool) :
    ((∀ c ∈ st.collaborations,
        ¬(c.itemType = itemType ∧ c.itemId = itemId ∧ c.email = email)) →
      updateCollaborators st itemType itemId [(email, role?, remove?)] = ([], st)) ∧
    (∀ pre c post,
      st.collaborations = pre ++ c :: post →
      (∀ d ∈ pre, ¬(d.itemType = itemType ∧ d.itemId = itemId ∧ d.email = email)) →
      c.itemType = itemType → c.itemId = itemId → c.email = email →
      ((remove?.getD false = true →
        (updateCollaborators st itemType itemId [(email, role?, remove?)]).2.collaborations =
          pre ++ post ∧
        (updateCollaborators st itemType itemId [(email, role?, remove?)]).1 =
          [(email, none, true)]) ∧
       (remove?.getD false = false → ∀ role, role? = some role → role ≠ "" →
        (updateCollaborators st itemType itemId [(email, role?, remove?)]).2.collaborations =
          pre ++ { c with role := role } :: post ∧
        (updateCollaborators st itemType itemId [(email, role?, remove?)]).1 =
          [(email, some role, false)]))) := by
  constructor
  · intro hnone
    have hidx : st.collaborations.findIdx? (fun c =>
        decide (c.itemType = itemType ∧ c.itemId = itemId ∧ c.email = email)) = none := by
      apply findIdx?_none_of_all
      intro d hd
      simp [hnone d hd]
    simp only [updateCollaborators, List.foldl_cons, List.foldl_nil,
      applyCollabUpdate]
    rw [hidx]
  · intro pre c post hsplit hpre hty hid hem
    have hidx : st.collaborations.findIdx? (fun c =>
        decide (c.itemType = itemType ∧ c.itemId = itemId ∧ c.email = email)) =
        some pre.length := by
      rw [hsplit]
      apply findIdx?_first
      · intro d hd
        simp [hpre d hd]
      · simp [hty, hid, hem]
    constructor
    · intro hrem
      simp only [updateCollaborators, List.foldl_cons, List.foldl_nil,
        applyCollabUpdate]
      rw [hidx]
      simp only [hrem, if_true]
      rw [hsplit, eraseIdx_at_length]
      simp
    · intro hrem role hrole hne
      simp only [updateCollaborators, List.foldl_cons, List.foldl_nil,
        applyCollabUpdate]
      rw [hidx]
      simp only [hrem, Bool.false_eq_true, if_false, hrole]
      rw [if_pos hne, hsplit, get?_at_length]
      simp [set_at_length]

def c8DemoStore : Store :=
  { folders := [], files := [],
    collaborations :=
      [⟨ItemKind.file, "f1", "a@x", "viewer"⟩,
       ⟨ItemKind.file, "f1", "a@x", "editor"⟩,
       ⟨ItemKind.file, "f1", "b@x", "viewer"⟩] }

theorem c8_updateCollaborators_witness :
    (updateCollaborators c8DemoStore ItemKind.file "f1"
        [("zz@x", some "owner", none)] = ([], c8DemoStore)) ∧
    (updateCollaborators c8DemoStore ItemKind.file "f1"
        [("a@x", some "owner", none)]).2.collaborations =
      [⟨ItemKind.file, "f1", "a@x", "owner"⟩,
       ⟨ItemKind.file, "f1", "a@x", "editor"⟩,
       ⟨ItemKind.file, "f1", "b@x", "viewer"⟩] ∧
    (updateCollaborators c8DemoStore ItemKind.file "f1"
        [("a@x", none, some true)]).2.collaborations =
      [⟨ItemKind.file, "f1", "a@x", "editor"⟩,
       ⟨ItemKind.file, "f1", "b@x", "viewer"⟩] := by
  refine ⟨?_, ?_, ?_⟩
  · exact (c8_updateCollaborators_first_match c8DemoStore ItemKind.file "f1" "zz@x"
      (some "owner") none).1 (by decide)
  · exact (((c8_updateCollaborators_first_match c8DemoStore ItemKind.file "f1" "a@x"
      (some "owner") none).2 []
      ⟨ItemKind.file, "f1", "a@x", "viewer"⟩
      [⟨ItemKind.file, "f1", "a@x", "editor"⟩, ⟨ItemKind.file, "f1", "b@x", "viewer"⟩]
      rfl (by simp) rfl rfl rfl).2 rfl "owner" rfl (by decide)).1
  · exact (((c8_updateCollaborators_first_match c8DemoStore ItemKind.file "f1" "a@x"
      none (some true)).2 []
      ⟨ItemKind.file, "f1", "a@x", "viewer"⟩
      [⟨ItemKind.file, "f1", "a@x", "editor"⟩, ⟨ItemKind.file, "f1", "b@x", "viewer"⟩]
      rfl (by simp) rfl rfl rfl).1 rfl).1

/-! ## Claim C7: batch isolation in `box_save_documents` -/

theorem saveDocItem_path (now : Nat) (overwrite createFolders : Bool)
    (st : Store) (doc : SaveDoc) :
    (saveDocItem now overwrite createFolders st doc).1.path = doc.path := by
  unfold saveDocItem
  repeat' split
  all_goals rfl

theorem saveLoop_paths (now : Nat) (overwrite createFolders : Bool) :
    ∀ (docs : List SaveDoc) (acc : List SaveItemResult) (st : Store),
      ((docs.foldl (saveStep now overwrite createFolders) (acc, st)).1).map
          (fun r => r.path) =
        acc.map (fun r => r.path) ++ docs.map (fun d => d.path) := by
  intro docs
  induction docs with
  | nil => intro acc st; simp
  | cons d docs ih =>
    intro acc st
    simp only [List.foldl_cons, List.map_cons]
    rw [show saveStep now overwrite createFolders (acc, st) d =
      (acc ++ [(saveDocItem now overwrite createFolders st d).1],
       (saveDocItem now overwrite createFolders st d).2) from rfl]
    rw [ih]
    simp [saveDocItem_path]

theorem filter_bool_partition (l : List α) (p : α → Bool) :
    (l.filter p).length + (l.filter (fun a => ! p a)).length = l.length := by
  induction l with
  | nil => rfl
  | cons a l ih =>
    by_cases h : p a = true <;> simp [List.filter_cons, h] <;> omega

def c7Store : Store :=
  { folders := [⟨"0", none, "", "/", none, 0⟩,
                ⟨"fld_2", some "0", "Reports", "/Reports", none, 1⟩],
    files := [⟨"fil_1", "fld_2", "b.txt", 4, [111, 114, 105, 103], 1⟩],
    collaborations := [] }

def c7Args : SaveArgs :=
  { documents := [⟨"Reports/a.txt", some "one"⟩,
                  ⟨"Reports/b.txt", some "two"⟩,
                  ⟨"Reports/c.txt", some "three"⟩] }

/-- C7: every document in a save batch yields exactly one result entry, in
order (so a failing item aborts nothing); aggregate `success` is the
conjunction of the per-item successes, `saved`/`failed` are the respective
counts and always add up to the batch size.  On the concrete 3-item batch
whose middle item targets the pre-existing `Reports/b.txt` without overwrite
permission, items 1 and 3 succeed, item 2 fails with the
"File already exists" error, `success` is false, `saved` is 2, `failed` is
1, and the final store still holds the uploads of items 1 and 3 next to the
untouched original — nothing was rolled back. -/
theorem c7_saveDocuments_batch (st : Store) (args : SaveArgs) (now : Nat) :
    ((saveDocuments st args now).1.results).length = args.documents.length ∧
    (saveDocuments st args now).1.results.map (fun r => r.path) =
      args.documents.map (fun d => d.path) ∧
    (saveDocuments st args now).1.success =
      (saveDocuments st args now).1.results.all (fun r => r.success) ∧
    (saveDocuments st args now).1.saved =
      ((saveDocuments st args now).1.results.filter (fun r => r.success)).length ∧
    (saveDocuments st args now).1.failed =
      ((saveDocuments st args now).1.results.filter (fun r => ! r.success)).length ∧
    (saveDocuments st args now).1.saved + (saveDocuments st args now).1.failed =
      args.documents.length ∧
    saveDocuments c7Store c7Args 2 =
      ({ success := false, saved := 2, failed := 1,
         results := [⟨"Reports/a.txt", true, none, some "fil_2", some 3⟩,
                     ⟨"Reports/b.txt", false, some "File already exists", none, none⟩,
                     ⟨"Reports/c.txt", true, none, some "fil_3", some 5⟩] },
       { folders := [⟨"0", none, "", "/", none, 0⟩,
                     ⟨"fld_2", some "0", "Reports", "/Reports", none, 1⟩],
         files := [⟨"fil_1", "fld_2", "b.txt", 4, [111, 114, 105, 103], 1⟩,
                   ⟨"fil_2", "fld_2", "a.txt", 3, [111, 110, 101], 2⟩,
                   ⟨"fil_3", "fld_2", "c.txt", 5, [116, 104, 114, 101, 101], 2⟩],
         collaborations := [] }) := by
  have hpaths := saveLoop_paths now
    ((args.options.bind (fun o => o.overwrite)).getD false)
    ((args.options.bind (fun o => o.createFolders)).getD true)
    args.documents [] st
  have hlen : ((saveDocuments st args now).1.results).length = args.documents.length := by
    have := congrArg List.length hpaths
    simpa [saveDocuments] using this
  refine ⟨hlen, ?_, rfl, rfl, rfl, ?_, ?_⟩
  · simpa [saveDocuments] using hpaths
  · have := filter_bool_partition ((saveDocuments st args now).1.results)
      (fun r => r.success)
    calc (saveDocuments st args now).1.saved + (saveDocuments st args now).1.failed
        = ((saveDocuments st args now).1.results.filter (fun r => r.success)).length +
          ((saveDocuments st args now).1.results.filter (fun r => ! r.success)).length := rfl
      _ = ((saveDocuments st args now).1.results).length := this
      _ = args.documents.length := hlen
  · decide

/-! ## Claim C1: schema validation in `callTool` -/

theorem formatErr_root (m : String) :
    formatErr ⟨"", m⟩ = "(root)" ++ " " ++ m := by
  simp [formatErr]

/-- C1: for a registered tool resolved by name whose schema is declared:
when the arguments violate the schema, `callTool` answers the structured
error result built from *all* violations (in particular one entry per
missing required property) and the answer does not depend on the tool's
handler — the handler is never invoked; when the arguments conform,
`callTool` answers exactly the handler applied to the raw argument
object. -/
theorem c1_callTool_validation (tools : List ToolDef) (name : String)
    (tool : ToolDef) (schema : JsonSchema) (args : Json) (st : Store)
    (hfind : tools.find? (fun t => t.name == name) = some tool)
    (hschema : tool.inputSchema = some schema) :
    (validate schema args ≠ [] →
      callTool tools name args st =
        .ok (validationErrorResult tool.name
              ((validate schema args).map formatErr), st)) ∧
    (validate schema args ≠ [] →
      ∀ (tools2 : List ToolDef) (tool2 : ToolDef) (st2 : Store),
        tools2.find? (fun t => t.name == name) = some tool2 →
        tool2.name = tool.name → tool2.inputSchema = some schema →
        callTool tools2 name args st2 =
          .ok (validationErrorResult tool.name
                ((validate schema args).map formatErr), st2)) ∧
    (∀ fields, args = Json.obj fields →
      ∀ r ∈ schema.required, getField fields r = none →
        ("(root)" ++ " " ++ ("must have required property " ++ r)) ∈
          (validationErrorResult tool.name
            ((validate schema args).map formatErr)).errors) ∧
    (validate schema args = [] →
      callTool tools name args st = .ok (tool.handler args st)) := by
  have hreduce : ∀ (ts : List ToolDef) (t : ToolDef) (s : Store),
      ts.find? (fun t => t.name == name) = some t →
      t.inputSchema = some schema → validate schema args ≠ [] →
      callTool ts name args s =
        .ok (validationErrorResult t.name ((validate schema args).map formatErr), s) := by
    intro ts t s hf hs hne
    simp only [callTool, hf, hs]
    rw [if_pos (by simpa using hne)]
  refine ⟨fun hne => hreduce tools tool st hfind hschema hne, ?_, ?_, ?_⟩
  · intro hne tools2 tool2 st2 hf2 hn2 hs2
    rw [hreduce tools2 tool2 st2 hf2 hs2 hne, hn2]
  · intro fields hobj r hr hmiss
    have hval : (⟨"", "must have required property " ++ r⟩ : ValError) ∈
        validate schema args := by
      rw [hobj]
      unfold validate
      apply List.mem_append_left
      apply List.mem_map.mpr
      refine ⟨r, ?_, rfl⟩
      apply List.mem_filter.mpr
      exact ⟨hr, by simp [hmiss]⟩
    have : ("(root)" ++ " " ++ ("must have required property " ++ r)) ∈
        (validate schema args).map formatErr := by
      rw [← formatErr_root]
      exact List.mem_map.mpr ⟨_, hval, rfl⟩
    simpa [validationErrorResult] using this
  · intro hval
    simp only [callTool, hfind, hschema]
    rw [if_neg (by simp [hval])]
    have hobj : orEmptyObj args = args := by
      cases args with
      | null => exact absurd hval (by simp [validate])
      | obj fields => rfl
      | bool b => exact absurd hval (by simp [validate])
      | num n => exact absurd hval (by simp [validate])
      | str s => exact absurd hval (by simp [validate])
      | arr l => exact absurd hval (by simp [validate])
    rw [hobj]

def c1DemoSchema : JsonSchema := { required := ["path", "content"] }

def c1DemoTool : ToolDef :=
  { name := "t", inputSchema := some c1DemoSchema,
    handler := fun _ s => ({ text := "ran" }, s) }

theorem c1_callTool_validation_witness :
    callTool [c1DemoTool] "t" (Json.obj [("path", Json.str "p")]) (initialStore 0) =
      .ok (validationErrorResult c1DemoTool.name
            ((validate c1DemoSchema (Json.obj [("path", Json.str "p")])).map formatErr),
           initialStore 0) ∧
    ("(root)" ++ " " ++ ("must have required property " ++ "content")) ∈
      (validationErrorResult c1DemoTool.name
        ((validate c1DemoSchema (Json.obj [("path", Json.str "p")])).map formatErr)).errors ∧
    callTool [c1DemoTool] "t"
        (Json.obj [("path", Json.str "p"), ("content", Json.str "c")]) (initialStore 0) =
      .ok (c1DemoTool.handler
            (Json.obj [("path", Json.str "p"), ("content", Json.str "c")])
            (initialStore 0)) := by
  have h1 := c1_callTool_validation [c1DemoTool] "t" c1DemoTool c1DemoSchema
    (Json.obj [("path", Json.str "p")]) (initialStore 0) rfl rfl
  have h2 := c1_callTool_validation [c1DemoTool] "t" c1DemoTool c1DemoSchema
    (Json.obj [("path", Json.str "p"), ("content", Json.str "c")]) (initialStore 0) rfl rfl
  refine ⟨h1.1 (by decide), ?_, h2.2.2.2 (by decide)⟩
  exact h1.2.2.1 [("path", Json.str "p")] rfl "content" (by decide) rfl

/-! ## Claim C10: ID freshness at creation

The generated IDs are `fld_${size + 1}` / `fil_${size + 1}`.  After a
`deleteFolder` the map size shrinks while surviving records keep their
higher-numbered IDs, so the next generated ID can collide with a surviving
record, which `Map.set` then silently replaces.  The concrete run below is
reachable through the public operations alone. -/

def c10Step1 : String × Store := ensureFolderPath (initialStore 0) "x" none 1

def c10Step2 : (String × Nat) × Store := uploadFile c10Step1.2 "fld_2" "a.txt" [1] 2

def c10Step3 : (String × Nat) × Store := uploadFile c10Step2.2 "0" "b.txt" [2] 3

def c10AfterDelete : Store :=
  ⟨[⟨"0", none, "", "/", none, 0⟩], [⟨"fil_2", "0", "b.txt", 1, [2], 3⟩], []⟩

/-- C10 counterexample: create `/x` (`fld_2`), upload `a.txt` into it
(`fil_1`) and `b.txt` at the root (`fil_2`), delete `/x` recursively; the
store now holds one file, `fil_2`.  Uploading the *new* file `c.txt` at the
root generates ID `fil_${1 + 1} = fil_2`, which is already present, and the
creation replaces the unrelated `b.txt` record: the claimed freshness is
violated in a reachable state. -/
theorem c10_counterexample :
    c10Step2.1.1 = "fil_1" ∧ c10Step3.1.1 = "fil_2" ∧
    deleteFolder 10 c10Step3.2 "fld_2" true = some (Except.ok c10AfterDelete) ∧
    (∃ f ∈ c10AfterDelete.files, f.id = filId (c10AfterDelete.files.length + 1)) ∧
    checkFileExists c10AfterDelete "0" "c.txt" = none ∧
    (uploadFile c10AfterDelete "0" "c.txt" [3] 5).1.1 = "fil_2" ∧
    (uploadFile c10AfterDelete "0" "c.txt" [3] 5).2.files =
      [⟨"fil_2", "0", "c.txt", 1, [3], 5⟩] ∧
    ¬ ∃ f ∈ (uploadFile c10AfterDelete "0" "c.txt" [3] 5).2.files,
        f.name = "b.txt" := by
  exact ⟨rfl, rfl, rfl, by decide, rfl, rfl, rfl, by decide⟩

/-- C10 amended: in stores whose generated IDs are canonical — every file ID
some `fil_k` with `k ≤ size` and every folder ID the root or some `fld_k`
with `k ≤ size`, which holds in every state reachable without
`deleteFolder` — the next generated file/folder ID is not already present,
and `uploadFile`'s create branch strictly appends the new record, replacing
nothing. -/
theorem c10_amended_freshness (st : Store) :
    (fileIdsCanonicalB st = true →
      (∀ f ∈ st.files, f.id ≠ filId (st.files.length + 1)) ∧
      ∀ parentId fileName content now,
        checkFileExists st parentId fileName = none →
        (uploadFile st parentId fileName content now).2.files =
          st.files ++ [⟨filId (st.files.length + 1), parentId, fileName,
                        content.length, content, now⟩]) ∧
    (folderIdsCanonicalB st = true →
      ∀ f ∈ st.folders, f.id ≠ fldId (st.folders.length + 1)) := by
  refine ⟨fun hc => ⟨fresh_file_id hc, ?_⟩, fun hc => fresh_folder_id hc⟩
  intro parentId fileName content now h
  have hgoal := mapSetFile_fresh
    (l := st.files)
    (f := ⟨filId (st.files.length + 1), parentId, fileName, content.length,
           content, now⟩)
    (fun g hg => fresh_file_id hc g hg)
  simp only [uploadFile, h]
  exact hgoal

theorem c10_amended_freshness_witness :
    (∀ f ∈ c7Store.files, f.id ≠ filId 2) ∧
    (∀ f ∈ c7Store.folders, f.id ≠ fldId 3) ∧
    (uploadFile c7Store "0" "n.txt" [7] 9).2.files =
      c7Store.files ++ [⟨filId 2, "0", "n.txt", 1, [7], 9⟩] := by
  have h := c10_amended_freshness c7Store
  exact ⟨(h.1 (by decide)).1, h.2 (by decide),
         (h.1 (by decide)).2 "0" "n.txt" [7] 9 rfl⟩

/-! ## Claim C5: idempotent `ensureFolderPath`, stable resolution -/

theorem find?_append_some {l1 l2 : List α} {p : α → Bool} {a : α}
    (h : l1.find? p = some a) : (l1 ++ l2).find? p = some a := by
  induction l1 with
  | nil => simp [List.find?] at h
  | cons x l1 ih =>
    cases hx : p x with
    | true =>
      rw [List.find?_cons_of_pos _ hx] at h
      rw [List.cons_append, List.find?_cons_of_pos _ hx]
      exact h
    | false =>
      rw [List.find?_cons_of_neg _ (by simp [hx])] at h
      rw [List.cons_append, List.find?_cons_of_neg _ (by simp [hx])]
      exact ih h

theorem find?_append_none {l1 l2 : List α} {p : α → Bool}
    (h : l1.find? p = none) : (l1 ++ l2).find? p = l2.find? p := by
  induction l1 with
  | nil => simp
  | cons x l1 ih =>
    cases hx : p x with
    | true =>
      rw [List.find?_cons_of_pos _ hx] at h
      exact absurd h (by simp)
    | false =>
      rw [List.find?_cons_of_neg _ (by simp [hx])] at h
      rw [List.cons_append, List.find?_cons_of_neg _ (by simp [hx])]
      exact ih h

theorem folderIdsCanonicalB_append {st : Store}
    (hc : folderIdsCanonicalB st = true) (f : FolderRec)
    (hid : f.id = fldId (st.folders.length + 1)) :
    folderIdsCanonicalB ⟨st.folders ++ [f], st.files, st.collaborations⟩ = true := by
  simp only [folderIdsCanonicalB, List.all_eq_true, Bool.or_eq_true, beq_iff_eq,
    List.any_eq_true, List.mem_range, Bool.and_eq_true, decide_eq_true_eq] at hc ⊢
  intro g hg
  rcases List.mem_append.mp hg with hold | hnew
  · rcases hc g hold with h0 | ⟨k, hk, h1, hkid⟩
    · exact Or.inl h0
    · refine Or.inr ⟨k, ?_, h1, hkid⟩
      simp only [List.length_append, List.length_cons, List.length_nil]
      omega
  · have hgf : g = f := by simpa using hnew
    refine Or.inr ⟨st.folders.length + 1, ?_, by omega, hgf ▸ hid⟩
    simp only [List.length_append, List.length_cons, List.length_nil]
    omega

/-- Stability of the `ensureFolderPath` walk: under canonical folder IDs,
one run extends the store by fresh appended folders only, and a second run
(with any description/time) retraces the very same chain — same terminal
ID, store untouched — while `resolveLoop` resolves the same chain. -/
theorem ensureLoop_stable (now now2 : Nat) (d d2 : Option String) :
    ∀ (parts : List String) (st : Store) (c cp : String),
      folderIdsCanonicalB st = true →
      (∃ app, (ensureLoop now d st c cp parts).2.folders = st.folders ++ app) ∧
      folderIdsCanonicalB (ensureLoop now d st c cp parts).2 = true ∧
      (ensureLoop now d st c cp parts).2.files = st.files ∧
      (ensureLoop now d st c cp parts).2.collaborations = st.collaborations ∧
      ensureLoop now2 d2 (ensureLoop now d st c cp parts).2 c cp parts =
        ((ensureLoop now d st c cp parts).1, (ensureLoop now d st c cp parts).2) ∧
      resolveLoop (ensureLoop now d st c cp parts).2 c parts =
        some (ensureLoop now d st c cp parts).1 := by
  intro parts
  induction parts with
  | nil =>
    intro st c cp hc
    exact ⟨⟨[], by simp [ensureLoop]⟩, hc, rfl, rfl, rfl, rfl⟩
  | cons part rest ih =>
    intro st c cp hc
    cases hfi : st.folders.find? (fun f => decide (f.parentId = some c ∧ f.name = part)) with
    | some ex =>
      have hrun : ensureLoop now d st c cp (part :: rest) =
          ensureLoop now d st ex.id
            (if cp ≠ "" then cp ++ "/" ++ part else "/" ++ part) rest := by
        simp only [ensureLoop, hfi]
      obtain ⟨⟨app, happ⟩, hcan, hfiles, hcols, hrun2, hres⟩ :=
        ih st ex.id (if cp ≠ "" then cp ++ "/" ++ part else "/" ++ part) hc
      rw [hrun]
      refine ⟨⟨app, happ⟩, hcan, hfiles, hcols, ?_, ?_⟩
      · have hfind2 : (ensureLoop now d st ex.id
            (if cp ≠ "" then cp ++ "/" ++ part else "/" ++ part) rest).2.folders.find?
              (fun f => decide (f.parentId = some c ∧ f.name = part)) = some ex := by
          rw [happ]
          exact find?_append_some hfi
        simp only [ensureLoop, hfind2]
        exact hrun2
      · have hfind2 : (ensureLoop now d st ex.id
            (if cp ≠ "" then cp ++ "/" ++ part else "/" ++ part) rest).2.folders.find?
              (fun f => decide (f.parentId = some c ∧ f.name = part)) = some ex := by
          rw [happ]
          exact find?_append_some hfi
        simp only [resolveLoop, hfind2]
        exact hres
    | none =>
      have hfresh : ∀ g ∈ st.folders, g.id ≠ fldId (st.folders.length + 1) :=
        fresh_folder_id hc
      have happend : mapSetFolder st.folders
          ⟨fldId (st.folders.length + 1), some c, part,
           (if cp ≠ "" then cp ++ "/" ++ part else "/" ++ part), d, now⟩ =
          st.folders ++ [⟨fldId (st.folders.length + 1), some c, part,
           (if cp ≠ "" then cp ++ "/" ++ part else "/" ++ part), d, now⟩] :=
        mapSetFolder_fresh (fun g hg => hfresh g hg)
      have hrun : ensureLoop now d st c cp (part :: rest) =
          ensureLoop now d
            ⟨st.folders ++ [⟨fldId (st.folders.length + 1), some c, part,
              (if cp ≠ "" then cp ++ "/" ++ part else "/" ++ part), d, now⟩],
             st.files, st.collaborations⟩
            (fldId (st.folders.length + 1))
            (if cp ≠ "" then cp ++ "/" ++ part else "/" ++ part) rest := by
        simp only [ensureLoop, hfi, happend]
      have hc1 : folderIdsCanonicalB
          ⟨st.folders ++ [⟨fldId (st.folders.length + 1), some c, part,
            (if cp ≠ "" then cp ++ "/" ++ part else "/" ++ part), d, now⟩],
           st.files, st.collaborations⟩ = true :=
        folderIdsCanonicalB_append hc _ rfl
      obtain ⟨⟨app2, happ2⟩, hcan, hfiles, hcols, hrun2, hres⟩ :=
        ih ⟨st.folders ++ [⟨fldId (st.folders.length + 1), some c, part,
              (if cp ≠ "" then cp ++ "/" ++ part else "/" ++ part), d, now⟩],
            st.files, st.collaborations⟩
          (fldId (st.folders.length + 1))
          (if cp ≠ "" then cp ++ "/" ++ part else "/" ++ part) hc1
      rw [hrun]
      have hfind2 : (ensureLoop now d
          ⟨st.folders ++ [⟨fldId (st.folders.length + 1), some c, part,
            (if cp ≠ "" then cp ++ "/" ++ part else "/" ++ part), d, now⟩],
           st.files, st.collaborations⟩
          (fldId (st.folders.length + 1))
          (if cp ≠ "" then cp ++ "/" ++ part else "/" ++ part) rest).2.folders.find?
            (fun f => decide (f.parentId = some c ∧ f.name = part)) =
          some ⟨fldId (st.folders.length + 1), some c, part,
            (if cp ≠ "" then cp ++ "/" ++ part else "/" ++ part), d, now⟩ := by
        rw [happ2]
        simp only [List.append_assoc, List.cons_append, List.nil_append]
        rw [find?_append_none hfi]
        simp [List.find?]
      refine ⟨⟨_, by rw [happ2, List.append_assoc]⟩, hcan, hfiles, hcols, ?_, ?_⟩
      · simp only [ensureLoop, hfind2]
        exact hrun2
      · simp only [resolveLoop, hfind2]
        exact hres

/-- C5: `ensureFolderPath` is idempotent and resolution is stable: after one
run, a second run over the same path (with any description and timestamp)
returns the same terminal ID and leaves the store exactly as it was — no
folder created, nothing (in particular no description) mutated — and
`resolveFolderPath` resolves the path to that same ID.  The empty path
resolves to the root ID `'0'` and its creation is a no-op.  Hypothesis: the
store's folder IDs are canonical (true of every state reachable without
`deleteFolder`, cf. C10). -/
theorem c5_ensure_idempotent_resolve_stable (st : Store) (p : String)
    (d d2 : Option String) (now now2 : Nat)
    (hc : folderIdsCanonicalB st = true) :
    ensureFolderPath (ensureFolderPath st p d now).2 p d2 now2 =
      ((ensureFolderPath st p d now).1, (ensureFolderPath st p d now).2) ∧
    resolveFolderPath (ensureFolderPath st p d now).2 p =
      some (ensureFolderPath st p d now).1 ∧
    (ensureFolderPath st p d now).2.files = st.files ∧
    resolveFolderPath st "" = some "0" ∧
    ensureFolderPath st "" d now = ("0", st) := by
  have h := ensureLoop_stable now now2 d d2 (pathParts p) st "0" "" hc
  refine ⟨h.2.2.2.2.1, h.2.2.2.2.2, h.2.2.1, ?_, ?_⟩
  · simp [resolveFolderPath, pathParts_empty, resolveLoop]
  · simp [ensureFolderPath, pathParts_empty, ensureLoop]

theorem c5_ensure_idempotent_witness :
    ensureFolderPath (ensureFolderPath (initialStore 0) "A/B" none 1).2 "A/B" none 2 =
      ((ensureFolderPath (initialStore 0) "A/B" none 1).1,
       (ensureFolderPath (initialStore 0) "A/B" none 1).2) ∧
    resolveFolderPath (ensureFolderPath (initialStore 0) "A/B" none 1).2 "A/B" =
      some (ensureFolderPath (initialStore 0) "A/B" none 1).1 := by
  have h := c5_ensure_idempotent_resolve_stable (initialStore 0) "A/B" none none 1 2
    (by decide)
  exact ⟨h.1, h.2.1⟩

/-! ## Infrastructure for the recursive operations

`updatePathsRecursively` and `deleteFolder` recurse through the live
parent-pointer graph.  The analysis works over the projection of the folder
map to `(id, parentId)` pairs, which both recursions preserve (only `path`
and `modified` change, or records disappear for delete). -/

/-- The identity-relevant part of a folder record, untouched by
`updatePathsRecursively`. -/
def fpMeta (f : FolderRec) : String × Option String × String × Option String :=
  (f.id, f.parentId, f.name, f.description)

/-- The identity-relevant part of a file record (everything except
`modified`). -/
def fileMeta (g : FileRec) : String × String × String × Nat × List Nat :=
  (g.id, g.parentId, g.name, g.size, g.content)

/-- The `(id, parentId)` projection of the folder map. -/
def foldersProj (st : Store) : List (String × Option String) :=
  st.folders.map (fun f => (f.id, f.parentId))

theorem foldersProj_of_meta {st st' : Store}
    (h : st'.folders.map fpMeta = st.folders.map fpMeta) :
    foldersProj st' = foldersProj st := by
  have := congrArg (List.map (fun x : String × Option String × String × Option String =>
    (x.1, x.2.1))) h
  simpa [foldersProj, fpMeta, List.map_map, Function.comp] using this

/-- `b` is a child of `a` in the projected parent graph. -/
def childRelP (prs : List (String × Option String)) (a b : String) : Prop :=
  (b, some a) ∈ prs

/-- `g` lies in the subtree rooted at `root` (reflexive-transitive child
closure). -/
def DescP (prs : List (String × Option String)) (root g : String) : Prop :=
  Relation.ReflTransGen (childRelP prs) root g

/-- A rank certificate: every child ranks strictly above its parent.
Equivalently, the parent graph is acyclic. -/
def rankOkP (prs : List (String × Option String)) (r : String → Nat) : Prop :=
  ∀ pr ∈ prs, ∀ pid, pr.2 = some pid → r pid < r pr.1

/-- Decidable form of the rank certificate on a store. -/
def rankOkB (st : Store) (r : String → Nat) : Bool :=
  st.folders.all (fun f =>
    match f.parentId with
    | some pid => decide (r pid < r f.id)
    | none => true)

theorem rankOkP_of_B {st : Store} {r : String → Nat} (h : rankOkB st r = true) :
    rankOkP (foldersProj st) r := by
  intro pr hpr pid hpid
  simp only [foldersProj, List.mem_map] at hpr
  obtain ⟨f, hf, rfl⟩ := hpr
  have := (List.all_eq_true.mp h) f hf
  simp only at hpid
  rw [hpid] at this
  simpa using this

theorem rank_lt_of_childRelP {prs : List (String × Option String)}
    {r : String → Nat} (hr : rankOkP prs r) {a b : String}
    (h : childRelP prs a b) : r a < r b :=
  hr (b, some a) h a rfl

theorem rank_le_of_descP {prs : List (String × Option String)}
    {r : String → Nat} (hr : rankOkP prs r) {a b : String}
    (h : DescP prs a b) : r a ≤ r b := by
  induction h with
  | refl => exact le_refl _
  | tail _ hstep ih => exact le_of_lt (lt_of_le_of_lt ih (rank_lt_of_childRelP hr hstep))

theorem not_descP_of_rank_lt {prs : List (String × Option String)}
    {r : String → Nat} (hr : rankOkP prs r) {a b : String}
    (h : r b < r a) : ¬ DescP prs a b :=
  fun hd => absurd (rank_le_of_descP hr hd) (by omega)

/-- Generic invariant preservation along an `Option`-monadic fold. -/
theorem foldlM_option_invariant {σ : Type} {step : σ → String → Option σ}
    (inv : σ → Prop) :
    ∀ (l : List String) (acc res : σ), l.foldlM step acc = some res →
      inv acc →
      (∀ s c s', c ∈ l → inv s → step s c = some s' → inv s') →
      inv res := by
  intro l
  induction l with
  | nil =>
    intro acc res h hacc _
    simp only [List.foldlM_nil] at h
    cases h
    exact hacc
  | cons c l ih =>
    intro acc res h hacc hstep
    simp only [List.foldlM_cons] at h
    cases hs : step acc c with
    | none => rw [hs] at h; cases h
    | some s1 =>
      rw [hs] at h
      exact ih s1 res h (hstep acc c s1 (List.mem_cons_self c l) hacc hs)
        (fun s c' s' hc' => hstep s c' s' (List.mem_cons_of_mem c hc'))

/-- Generic success of an `Option`-monadic fold under an invariant. -/
theorem foldlM_option_isSome {σ : Type} {step : σ → String → Option σ}
    (inv : σ → Prop) :
    ∀ (l : List String) (acc : σ), inv acc →
      (∀ s c, c ∈ l → inv s → (step s c).isSome) →
      (∀ s c s', c ∈ l → inv s → step s c = some s' → inv s') →
      (l.foldlM step acc).isSome := by
  intro l
  induction l with
  | nil => intro acc _ _ _; simp
  | cons c l ih =>
    intro acc hacc hsome hstep
    simp only [List.foldlM_cons]
    cases hs : step acc c with
    | none =>
      have := hsome acc c (List.mem_cons_self c l) hacc
      rw [hs] at this
      cases this
    | some s1 =>
      exact ih s1 (hstep acc c s1 (List.mem_cons_self c l) hacc hs)
        (fun s c' hc' => hsome s c' (List.mem_cons_of_mem c hc'))
        (fun s c' s' hc' => hstep s c' s' (List.mem_cons_of_mem c hc'))

/-- Generic divergence of an `Option`-monadic fold: if some listed element's
step always fails from invariant states, the fold fails. -/
theorem foldlM_option_none {σ : Type} {step : σ → String → Option σ}
    (inv : σ → Prop) (bad : String) :
    ∀ (l : List String) (acc : σ), bad ∈ l → inv acc →
      (∀ s c s', inv s → step s c = some s' → inv s') →
      (∀ s, inv s → step s bad = none) →
      l.foldlM step acc = none := by
  intro l
  induction l with
  | nil => intro acc h; cases h
  | cons c l ih =>
    intro acc hbad hacc hstep hfail
    simp only [List.foldlM_cons]
    by_cases hc : c = bad
    · rw [hc, hfail acc hacc]
      rfl
    · cases hs : step acc c with
      | none => rfl
      | some s1 =>
        have hbad' : bad ∈ l := by
          cases List.mem_cons.mp hbad with
          | inl h => exact absurd h.symm hc
          | inr h => exact h
        exact ih s1 hbad' (hstep acc c s1 hacc hs) hstep hfail

/-- L1: `updatePathsRecursively` preserves the identity parts of folder and
file records and the collaborations; only `path`/`modified` change. -/
theorem updatePathsRec_meta (now : Nat) : ∀ (fuel : Nat) (st : Store)
    (fid pp : String) (st' : Store),
    updatePathsRec now fuel st fid pp = some st' →
    st'.folders.map fpMeta = st.folders.map fpMeta ∧
    st'.files.map fileMeta = st.files.map fileMeta ∧
    st'.collaborations = st.collaborations := by
  intro fuel
  induction fuel with
  | zero => intro st fid pp st' h; cases h
  | succ fuel ih =>
    intro st fid pp st' h
    cases hlk : lookupFolder st fid with
    | none =>
      simp only [updatePathsRec, hlk] at h
      cases h
      exact ⟨rfl, rfl, rfl⟩
    | some folder =>
      simp only [updatePathsRec, hlk] at h
      set st1 : Store := { st with folders := st.folders.map (fun g =>
        if g.id = fid then
          { g with
            path := if pp ≠ "" then pp ++ "/" ++ folder.name else "/" ++ folder.name,
            modified := now }
        else g) } with hst1
      have hmeta1 : st1.folders.map fpMeta = st.folders.map fpMeta := by
        rw [hst1]
        simp only [List.map_map]
        apply List.map_congr_left
        intro g _
        by_cases hg : g.id = fid <;> simp [hg, fpMeta, Function.comp]
      cases hfold : (st1.folders.filter
          (fun f => decide (f.parentId = some fid))).map (fun f => f.id)
          |>.foldlM (fun acc cid => updatePathsRec now fuel acc cid
            (if pp ≠ "" then pp ++ "/" ++ folder.name else "/" ++ folder.name)) st1 with
      | none => rw [hfold] at h; cases h
      | some st2 =>
        rw [hfold] at h
        cases h
        have h2 := foldlM_option_invariant
          (fun s => s.folders.map fpMeta = st.folders.map fpMeta ∧
            s.files.map fileMeta = st.files.map fileMeta ∧
            s.collaborations = st.collaborations)
          _ st1 st2 hfold ⟨hmeta1, rfl, rfl⟩
          (fun s c s' _ hs hstep =>
            let m := ih s c _ s' hstep
            ⟨m.1.trans hs.1, m.2.1.trans hs.2.1, m.2.2.trans hs.2.2⟩)
        refine ⟨h2.1, ?_, h2.2.2⟩
        rw [← h2.2.1]
        simp only [touchFilesUnder, List.map_map]
        apply List.map_congr_left
        intro g _
        by_cases hg : g.parentId = fid <;> simp [hg, fileMeta, Function.comp]

theorem lookupFolder_isSome_of_proj {st : Store} {fid : String} {pid : Option String}
    (h : (fid, pid) ∈ foldersProj st) : ∃ fo, lookupFolder st fid = some fo := by
  simp only [foldersProj, List.mem_map] at h
  obtain ⟨f, hf, hpr⟩ := h
  have hfid : f.id = fid := congrArg Prod.fst hpr
  have : (st.folders.find? (fun g => g.id == fid)).isSome := by
    rw [List.find?_isSome]
    exact ⟨f, hf, by simp [hfid]⟩
  obtain ⟨fo, hfo⟩ := Option.isSome_iff_exists.mp this
  exact ⟨fo, hfo⟩

/-- The `(id, parentId)` projection of the first folder-map update inside
`updatePathsRecursively` (and of the reparent/rename updates) is unchanged
when the update touches neither field. -/
theorem foldersProj_map_update {st : Store} {u : FolderRec → FolderRec}
    (hu : ∀ g, (u g).id = g.id ∧ (u g).parentId = g.parentId) :
    foldersProj { st with folders := st.folders.map u } = foldersProj st := by
  simp only [foldersProj, List.map_map]
  apply List.map_congr_left
  intro g _
  simp [Function.comp, (hu g).1, (hu g).2]

/-- Termination of `updatePathsRecursively` under a rank certificate: with
fuel exceeding the rank gap, the recursion completes. -/
theorem updatePathsRec_total (now : Nat) (r : String → Nat) :
    ∀ (fuel : Nat) (st : Store) (fid pp : String),
      rankOkP (foldersProj st) r →
      (∀ pr ∈ foldersProj st, r pr.1 < r fid + fuel) →
      0 < fuel →
      (updatePathsRec now fuel st fid pp).isSome := by
  intro fuel
  induction fuel with
  | zero => intro st fid pp _ _ h; cases h
  | succ fuel ih =>
    intro st fid pp hrank hbound _
    cases hlk : lookupFolder st fid with
    | none => simp [updatePathsRec, hlk]
    | some folder =>
      simp only [updatePathsRec, hlk]
      set st1 : Store := { st with folders := st.folders.map (fun g =>
        if g.id = fid then
          { g with
            path := if pp ≠ "" then pp ++ "/" ++ folder.name else "/" ++ folder.name,
            modified := now }
        else g) } with hst1
      have hproj1 : foldersProj st1 = foldersProj st :=
        foldersProj_map_update (fun g => by by_cases hg : g.id = fid <;> simp [hg])
      have hchild : ∀ cid ∈ (st1.folders.filter
          (fun f => decide (f.parentId = some fid))).map (fun f => f.id),
          (cid, some fid) ∈ foldersProj st := by
        intro cid hcid
        simp only [List.mem_map, List.mem_filter, decide_eq_true_eq] at hcid
        obtain ⟨f, ⟨hf, hpar⟩, rfl⟩ := hcid
        rw [← hproj1]
        simp only [foldersProj, List.mem_map]
        exact ⟨f, hf, by rw [hpar]⟩
      have hfold : ((st1.folders.filter
          (fun f => decide (f.parentId = some fid))).map (fun f => f.id)
          |>.foldlM (fun acc cid => updatePathsRec now fuel acc cid
            (if pp ≠ "" then pp ++ "/" ++ folder.name else "/" ++ folder.name)) st1).isSome := by
        apply foldlM_option_isSome (fun s => foldersProj s = foldersProj st)
        · exact hproj1
        · intro s c hc hs
          have hcrel := hchild c hc
          have hrc : r fid < r c := hrank (c, some fid) hcrel fid rfl
          have hbc : r c < r fid + (fuel + 1) := hbound (c, some fid) hcrel
          apply ih
          · rw [hs]; exact hrank
          · intro pr hpr
            rw [hs] at hpr
            have := hbound pr hpr
            omega
          · omega
        · intro s c s' _ hs hstep
          have hm := (updatePathsRec_meta now fuel s c _ s' hstep).1
          rw [← hs]
          exact foldersProj_of_meta hm
      obtain ⟨st2, hst2⟩ := Option.isSome_iff_exists.mp hfold
      rw [hst2]
      rfl

/-- L2: a folder outside the updated subtree keeps its exact record. -/
theorem updatePathsRec_outside (now : Nat) : ∀ (fuel : Nat) (st : Store)
    (fid pp : String) (st' : Store),
    updatePathsRec now fuel st fid pp = some st' →
    ∀ g ∈ st.folders, ¬ DescP (foldersProj st) fid g.id → g ∈ st'.folders := by
  intro fuel
  induction fuel with
  | zero => intro st fid pp st' h; cases h
  | succ fuel ih =>
    intro st fid pp st' h g hg hnd
    cases hlk : lookupFolder st fid with
    | none =>
      simp only [updatePathsRec, hlk] at h
      cases h
      exact hg
    | some folder =>
      simp only [updatePathsRec, hlk] at h
      set st1 : Store := { st with folders := st.folders.map (fun g =>
        if g.id = fid then
          { g with
            path := if pp ≠ "" then pp ++ "/" ++ folder.name else "/" ++ folder.name,
            modified := now }
        else g) } with hst1
      have hproj1 : foldersProj st1 = foldersProj st :=
        foldersProj_map_update (fun g => by by_cases hgg : g.id = fid <;> simp [hgg])
      have hgne : g.id ≠ fid := by
        intro heq
        exact hnd (heq ▸ Relation.ReflTransGen.refl)
      have hg1 : g ∈ st1.folders := by
        rw [hst1]
        exact List.mem_map.mpr ⟨g, hg, by simp [hgne]⟩
      cases hfold : (st1.folders.filter
          (fun f => decide (f.parentId = some fid))).map (fun f => f.id)
          |>.foldlM (fun acc cid => updatePathsRec now fuel acc cid
            (if pp ≠ "" then pp ++ "/" ++ folder.name else "/" ++ folder.name)) st1 with
      | none => rw [hfold] at h; cases h
      | some st2 =>
        rw [hfold] at h
        cases h
        have hinv := foldlM_option_invariant
          (fun s => foldersProj s = foldersProj st ∧ g ∈ s.folders)
          _ st1 st2 hfold ⟨hproj1, hg1⟩ ?_
        · exact hinv.2
        · intro s c s' hc hs hstep
          have hm := (updatePathsRec_meta now fuel s c _ s' hstep).1
          have hproj' : foldersProj s' = foldersProj st :=
            (foldersProj_of_meta hm).trans hs.1
          refine ⟨hproj', ?_⟩
          apply ih s c _ s' hstep g hs.2
          rw [hs.1]
          intro hdesc
          apply hnd
          have hcrel : childRelP (foldersProj st) fid c := by
            simp only [List.mem_map, List.mem_filter, decide_eq_true_eq] at hc
            obtain ⟨f, ⟨hf, hpar⟩, rfl⟩ := hc
            rw [← hproj1]
            simp only [childRelP, foldersProj, List.mem_map]
            exact ⟨f, hf, by rw [hpar]⟩
          exact Relation.ReflTransGen.head hcrel hdesc

/-- Divergence: if the folder lies on a parent-pointer cycle, the recursion
never finishes, for any fuel. -/
theorem updatePathsRec_cycle_none (now : Nat) :
    ∀ (fuel : Nat) (st : Store) (fid pp : String),
      Relation.TransGen (childRelP (foldersProj st)) fid fid →
      updatePathsRec now fuel st fid pp = none := by
  intro fuel
  induction fuel with
  | zero => intro st fid pp _; rfl
  | succ fuel ih =>
    intro st fid pp hcyc
    obtain ⟨c, hstep, hrest⟩ := Relation.TransGen.head'_iff.mp hcyc
    obtain ⟨b, _, hlast⟩ := Relation.TransGen.tail'_iff.mp hcyc
    obtain ⟨fo, hlk⟩ := lookupFolder_isSome_of_proj hlast
    simp only [updatePathsRec, hlk]
    set st1 : Store := { st with folders := st.folders.map (fun g =>
      if g.id = fid then
        { g with
          path := if pp ≠ "" then pp ++ "/" ++ fo.name else "/" ++ fo.name,
          modified := now }
      else g) } with hst1
    have hproj1 : foldersProj st1 = foldersProj st :=
      foldersProj_map_update (fun g => by by_cases hg : g.id = fid <;> simp [hg])
    have hcyc_c : Relation.TransGen (childRelP (foldersProj st)) c c :=
      Relation.TransGen.tail' hrest hstep
    have hcmem : c ∈ (st1.folders.filter
        (fun f => decide (f.parentId = some fid))).map (fun f => f.id) := by
      have : (c, some fid) ∈ foldersProj st1 := by rw [hproj1]; exact hstep
      simp only [foldersProj, List.mem_map] at this
      obtain ⟨f, hf, hpr⟩ := this
      have hfid : f.id = c := congrArg Prod.fst hpr
      have hfpar : f.parentId = some fid := congrArg Prod.snd hpr
      simp only [List.mem_map, List.mem_filter, decide_eq_true_eq]
      exact ⟨f, ⟨hf, hfpar⟩, hfid⟩
    rw [foldlM_option_none (fun s => foldersProj s = foldersProj st) c _ st1
      hcmem hproj1
      (fun s cc s' hs hstep' =>
        (foldersProj_of_meta (updatePathsRec_meta now fuel s cc _ s' hstep').1).trans hs)
      (fun s hs => ih s c _ (by rw [show childRelP (foldersProj s) =
        childRelP (foldersProj st) from by rw [hs]]; exact hcyc_c))]

/-! ## Claim C9: termination of the recursive path update -/

def c9BaseStore : Store := (ensureFolderPath (initialStore 0) "A/B" none 1).2

/-- `c9BaseStore` after `moveFolder("fld_2", "fld_2")` reparents `fld_2`
onto itself (the state inside `moveFolder` just before the path update). -/
def c9SelfStore : Store :=
  { folders := [⟨"0", none, "", "/", none, 0⟩,
                ⟨"fld_2", some "fld_2", "A", "/A", none, 1⟩,
                ⟨"fld_3", some "fld_2", "B", "/A/B", none, 1⟩],
    files := [], collaborations := [] }

/-- `c9BaseStore` after `moveFolder("fld_2", "fld_3")` reparents `fld_2`
under its own child `fld_3`. -/
def c9ChildStore : Store :=
  { folders := [⟨"0", none, "", "/", none, 0⟩,
                ⟨"fld_2", some "fld_3", "A", "/A", none, 1⟩,
                ⟨"fld_3", some "fld_2", "B", "/A/B", none, 1⟩],
    files := [], collaborations := [] }

/-- `moveFolder` never finishes, whatever the recursion depth available. -/
def moveFolderDiverges (now : Nat) (st : Store) (folderId newParentId : String) : Prop :=
  ∀ fuel, moveFolder now fuel st folderId newParentId = none

/-- C9 counterexample: in the reachable store `{/A, /A/B}`, both arguments
of `moveFolder("fld_2", "fld_2")` and of `moveFolder("fld_2", "fld_3")`
pass the only precondition the code checks (both IDs exist), yet the
recursive path update diverges: the claim that every such call terminates
is false. -/
theorem c9_counterexample :
    (lookupFolder c9BaseStore "fld_2").isSome ∧
    (lookupFolder c9BaseStore "fld_3").isSome ∧
    moveFolderDiverges 9 c9BaseStore "fld_2" "fld_2" ∧
    moveFolderDiverges 9 c9BaseStore "fld_2" "fld_3" := by
  refine ⟨by decide, by decide, ?_, ?_⟩
  · intro fuel
    have hred : moveFolder 9 fuel c9BaseStore "fld_2" "fld_2" =
        (updatePathsRec 9 fuel c9SelfStore "fld_2" "/A").map Except.ok := rfl
    rw [hred, updatePathsRec_cycle_none 9 fuel c9SelfStore "fld_2" "/A"
      (Relation.TransGen.single
        (show ("fld_2", some "fld_2") ∈ foldersProj c9SelfStore by decide))]
    rfl
  · intro fuel
    have hred : moveFolder 9 fuel c9BaseStore "fld_2" "fld_3" =
        (updatePathsRec 9 fuel c9ChildStore "fld_2" "/A/B").map Except.ok := rfl
    have hstep1 : childRelP (foldersProj c9ChildStore) "fld_2" "fld_3" :=
      show ("fld_3", some "fld_2") ∈ foldersProj c9ChildStore by decide
    have hstep2 : childRelP (foldersProj c9ChildStore) "fld_3" "fld_2" :=
      show ("fld_2", some "fld_3") ∈ foldersProj c9ChildStore by decide
    rw [hred, updatePathsRec_cycle_none 9 fuel c9ChildStore "fld_2" "/A/B"
      (Relation.TransGen.head hstep1 (Relation.TransGen.single hstep2))]
    rfl

/-- C9 amended: `moveFolder` and `renameFolder` do terminate whenever the
parent graph stays acyclic — witnessed by a rank certificate on the
post-reparent store (for a move) or the store itself (for a rename), i.e.
whenever the new parent is not the moved folder or one of its descendants —
given fuel exceeding the rank spread. -/
theorem c9_amended_termination (now fuel : Nat) (st : Store) (r : String → Nat) :
    (∀ folderId newParentId : String,
      rankOkB { st with folders := st.folders.map (fun g =>
        if g.id = folderId then { g with parentId := some newParentId } else g) } r = true →
      (∀ f ∈ st.folders, r f.id < r folderId + fuel) →
      0 < fuel →
      (moveFolder now fuel st folderId newParentId).isSome) ∧
    (∀ folderId newName : String,
      rankOkB st r = true →
      (∀ f ∈ st.folders, r f.id < r folderId + fuel) →
      0 < fuel →
      (renameFolder now fuel st folderId newName).isSome) := by
  constructor
  · intro folderId newParentId hrank hbound hfuel
    cases hlk1 : lookupFolder st folderId with
    | none => simp [moveFolder, hlk1]
    | some folder =>
      cases hlk2 : lookupFolder st newParentId with
      | none => simp [moveFolder, hlk1, hlk2]
      | some parent =>
        have htot := updatePathsRec_total now r fuel
          { st with folders := st.folders.map (fun g =>
              if g.id = folderId then { g with parentId := some newParentId } else g) }
          folderId parent.path (rankOkP_of_B hrank) ?_ hfuel
        · obtain ⟨st2, hst2⟩ := Option.isSome_iff_exists.mp htot
          simp [moveFolder, hlk1, hlk2, hst2]
        · intro pr hpr
          simp only [foldersProj, List.map_map, List.mem_map] at hpr
          obtain ⟨f, hf, hpr⟩ := hpr
          have : pr.1 = f.id := by
            rw [← hpr]
            by_cases hg : f.id = folderId <;> simp [Function.comp, hg]
          rw [this]
          exact hbound f hf
  · intro folderId newName hrank hbound hfuel
    cases hlk1 : lookupFolder st folderId with
    | none => simp [renameFolder, hlk1]
    | some folder =>
      have hproj : foldersProj { st with folders := st.folders.map (fun g =>
          if g.id = folderId then { g with name := newName } else g) } =
          foldersProj st :=
        foldersProj_map_update (fun g => by by_cases hg : g.id = folderId <;> simp [hg])
      have htot := updatePathsRec_total now r fuel
        { st with folders := st.folders.map (fun g =>
            if g.id = folderId then { g with name := newName } else g) }
        folderId
        (match (match folder.parentId with
                | some pid => lookupFolder st pid
                | none => none) with
         | some p => if p.path ≠ "" then p.path else ""
         | none => "")
        (by rw [hproj]; exact rankOkP_of_B hrank) ?_ hfuel
      · obtain ⟨st2, hst2⟩ := Option.isSome_iff_exists.mp htot
        simp only [ne_eq, ite_not] at hst2
        simp [renameFolder, hlk1, hst2]
      · intro pr hpr
        rw [hproj] at hpr
        simp only [foldersProj, List.mem_map] at hpr
        obtain ⟨f, hf, hpr⟩ := hpr
        have : pr.1 = f.id := by rw [← hpr]
        rw [this]
        exact hbound f hf

def c9Rank : String → Nat := fun id =>
  if id = "0" then 0 else if id = "fld_2" then 1 else 2

theorem c9_amended_termination_witness :
    (moveFolder 9 10 c9BaseStore "fld_3" "0").isSome ∧
    (renameFolder 9 10 c9BaseStore "fld_2" "D").isSome := by
  have h := c9_amended_termination 9 10 c9BaseStore c9Rank
  exact ⟨h.1 "fld_3" "0" (by decide) (by decide) (by decide),
         h.2 "fld_2" "D" (by decide) (by decide) (by decide)⟩

/-! ## Well-formedness of a store

Propositional forms used inside proofs; decidable (`Bool`) forms appear as
top-level hypotheses so that witnesses can discharge them by `decide`. -/

def NodupIds (st : Store) : Prop := (st.folders.map (fun f => f.id)).Nodup

/-- A folder without a parent is exactly the root: ID `'0'`, path `"/"`
(stated on segments, which is what resolution consumes). -/
def ParentNoneRoot (st : Store) : Prop :=
  ∀ f ∈ st.folders, f.parentId = none → f.id = "0" ∧ pathParts f.path = []

/-- Every parented folder has a present parent and its stored path extends
the parent's by its own name, segment-wise. -/
def PathSegP (st : Store) : Prop :=
  ∀ f ∈ st.folders, ∀ pid, f.parentId = some pid →
    ∃ q ∈ st.folders, q.id = pid ∧
      pathParts f.path = pathParts q.path ++ [f.name]

/-- No two folders share a parent and a name. -/
def NameUniqP (st : Store) : Prop :=
  ∀ f ∈ st.folders, ∀ g ∈ st.folders,
    f.parentId = g.parentId → f.name = g.name → f.id = g.id

theorem parent_unique {prs : List (String × Option String)}
    (hnd : (prs.map Prod.fst).Nodup) {b : String} {p1 p2 : Option String}
    (h1 : (b, p1) ∈ prs) (h2 : (b, p2) ∈ prs) : p1 = p2 := by
  induction prs with
  | nil => cases h1
  | cons x l ih =>
    have hnd' : (l.map Prod.fst).Nodup := (List.nodup_cons.mp hnd).2
    have hx : x.1 ∉ l.map Prod.fst := (List.nodup_cons.mp hnd).1
    cases List.mem_cons.mp h1 with
    | inl hh1 =>
      cases List.mem_cons.mp h2 with
      | inl hh2 =>
        rw [← hh1] at hh2
        exact (Prod.mk.injEq _ _ _ _).mp hh2.symm |>.2.symm ▸ rfl
      | inr hh2 =>
        exfalso
        apply hx
        rw [← hh1]
        exact List.mem_map.mpr ⟨(b, p2), hh2, rfl⟩
    | inr hh1 =>
      cases List.mem_cons.mp h2 with
      | inl hh2 =>
        exfalso
        apply hx
        rw [← hh2]
        exact List.mem_map.mpr ⟨(b, p1), hh1, rfl⟩
      | inr hh2 => exact ih hnd' hh1 hh2

/-- Two subtree roots covering a common node are comparable (the parent
graph is a forest under a rank certificate plus unique IDs). -/
theorem descP_comparable {prs : List (String × Option String)}
    {r : String → Nat} (hr : rankOkP prs r)
    (hnd : (prs.map Prod.fst).Nodup) :
    ∀ (n : Nat) (g x y : String), r g ≤ n →
      DescP prs x g → DescP prs y g →
      DescP prs x y ∨ DescP prs y x := by
  intro n
  induction n with
  | zero =>
    intro g x y hle hxg hyg
    cases Relation.ReflTransGen.cases_tail hxg with
    | inl h => exact Or.inr (h ▸ hyg)
    | inr h =>
      obtain ⟨c, _, hcg⟩ := h
      have := rank_lt_of_childRelP hr hcg
      omega
  | succ n ih =>
    intro g x y hle hxg hyg
    cases Relation.ReflTransGen.cases_tail hxg with
    | inl h => exact Or.inr (h ▸ hyg)
    | inr h =>
      obtain ⟨c, hxc, hcg⟩ := h
      cases Relation.ReflTransGen.cases_tail hyg with
      | inl h' => exact Or.inl (h' ▸ hxg)
      | inr h' =>
        obtain ⟨c', hyc', hc'g⟩ := h'
        have hcc : some c = some c' := parent_unique hnd hcg hc'g
        have hcc' : c = c' := Option.some.injEq _ _ ▸ hcc
        have hrank := rank_lt_of_childRelP hr hcg
        exact ih c x y (by omega) hxc (hcc' ▸ hyc')

/-- Sibling subtrees are disjoint. -/
theorem sibling_subtrees_disjoint {prs : List (String × Option String)}
    {r : String → Nat} (hr : rankOkP prs r)
    (hnd : (prs.map Prod.fst).Nodup) {fid c1 c2 g : String}
    (h1 : childRelP prs fid c1) (h2 : childRelP prs fid c2) (hne : c1 ≠ c2)
    (hd1 : DescP prs c1 g) (hd2 : DescP prs c2 g) : False := by
  have hcomp := descP_comparable hr hnd (r g) g c1 c2 (le_refl _) hd1 hd2
  have hsub : ∀ a b : String, childRelP prs fid a → childRelP prs fid b →
      a ≠ b → DescP prs a b → False := by
    intro a b ha hb hab hdesc
    cases Relation.ReflTransGen.cases_tail hdesc with
    | inl h => exact hab h.symm
    | inr h =>
      obtain ⟨q, haq, hqb⟩ := h
      have : some q = some fid := parent_unique hnd hqb hb
      have hq : q = fid := Option.some.injEq _ _ ▸ this
      rw [hq] at haq
      have h1' := rank_lt_of_childRelP hr ha
      have h2' := rank_le_of_descP hr haq
      omega
  cases hcomp with
  | inl h => exact hsub c1 c2 h1 h2 hne h
  | inr h => exact hsub c2 c1 h2 h1 (Ne.symm hne) h

theorem resolveLoop_append (st : Store) :
    ∀ (xs ys : List String) (c : String),
      resolveLoop st c (xs ++ ys) =
        match resolveLoop st c xs with
        | some m => resolveLoop st m ys
        | none => none := by
  intro xs
  induction xs with
  | nil => intro ys c; rfl
  | cons x xs ih =>
    intro ys c
    simp only [List.cons_append, resolveLoop]
    cases st.folders.find? (fun f => decide (f.parentId = some c ∧ f.name = x)) with
    | none => rfl
    | some next => exact ih ys next.id

/-- Resolution correctness: in a well-formed store, every folder's stored
path resolves to its own ID. -/
theorem resolve_own_path {st : Store} {r : String → Nat}
    (hr : rankOkP (foldersProj st) r) (_hnd : NodupIds st)
    (hroot : ParentNoneRoot st) (hseg : PathSegP st) (huniq : NameUniqP st) :
    ∀ (n : Nat), ∀ f ∈ st.folders, r f.id ≤ n →
      resolveLoop st "0" (pathParts f.path) = some f.id := by
  intro n
  induction n with
  | zero =>
    intro f hf hle
    cases hpar : f.parentId with
    | none =>
      obtain ⟨hid, hparts⟩ := hroot f hf hpar
      rw [hparts, hid]
      rfl
    | some pid =>
      exfalso
      have : r pid < r f.id :=
        hr (f.id, f.parentId) (List.mem_map.mpr ⟨f, hf, rfl⟩) pid (by simp [hpar])
      omega
  | succ n ih =>
    intro f hf hle
    cases hpar : f.parentId with
    | none =>
      obtain ⟨hid, hparts⟩ := hroot f hf hpar
      rw [hparts, hid]
      rfl
    | some pid =>
      obtain ⟨q, hq, hqid, hparts⟩ := hseg f hf pid hpar
      have hrlt : r pid < r f.id :=
        hr (f.id, f.parentId) (List.mem_map.mpr ⟨f, hf, rfl⟩) pid (by simp [hpar])
      have hqwalk : resolveLoop st "0" (pathParts q.path) = some q.id :=
        ih q hq (by rw [hqid]; omega)
      rw [hparts, resolveLoop_append, hqwalk]
      simp only [resolveLoop]
      have hfind : (st.folders.find? (fun g =>
          decide (g.parentId = some q.id ∧ g.name = f.name))).isSome := by
        rw [List.find?_isSome]
        exact ⟨f, hf, by simp [hpar, hqid]⟩
      obtain ⟨g0, hg0⟩ := Option.isSome_iff_exists.mp hfind
      have hg0mem := List.mem_of_find?_eq_some hg0
      have hg0pred := List.find?_some hg0
      simp only [decide_eq_true_eq] at hg0pred
      have hsame : g0.id = f.id :=
        huniq g0 hg0mem f hf (by rw [hg0pred.1, hpar, hqid]) hg0pred.2
      rw [hg0]
      simp [resolveLoop, hsame]

/-- Resolution failure below a parent that has no child of a given name:
`parent-path ++ badName :: anything` resolves to nothing. -/
theorem resolve_fails_below {st : Store} {r : String → Nat}
    (hr : rankOkP (foldersProj st) r) (hnd : NodupIds st)
    (hroot : ParentNoneRoot st) (hseg : PathSegP st) (huniq : NameUniqP st)
    (P : FolderRec) (hP : P ∈ st.folders) (badName : String)
    (hnochild : ∀ g ∈ st.folders, g.parentId = some P.id → g.name ≠ badName)
    (restParts : List String) :
    resolveLoop st "0" (pathParts P.path ++ badName :: restParts) = none := by
  rw [resolveLoop_append,
    resolve_own_path hr hnd hroot hseg huniq (r P.id) P hP (le_refl _)]
  simp only [resolveLoop]
  have hfind : st.folders.find? (fun g =>
      decide (g.parentId = some P.id ∧ g.name = badName)) = none := by
    rw [List.find?_eq_none]
    intro g hg
    simp only [decide_eq_true_eq, not_and]
    intro hgp
    exact hnochild g hg hgp
  rw [hfind]

/-- In a list with `Nodup` keys, membership with equal keys forces equal
elements. -/
theorem mem_unique_key {l : List FolderRec}
    (hnd : (l.map (fun f => f.id)).Nodup) {f g : FolderRec}
    (hf : f ∈ l) (hg : g ∈ l) (hid : f.id = g.id) : f = g := by
  induction l with
  | nil => cases hf
  | cons x l ih =>
    have hx : x.id ∉ l.map (fun f => f.id) := by
      have := (List.nodup_cons.mp hnd).1
      simpa using this
    rcases List.mem_cons.mp hf with rfl | hf' <;>
      rcases List.mem_cons.mp hg with rfl | hg'
    · rfl
    · exact absurd (List.mem_map.mpr ⟨g, hg', hid.symm⟩) hx
    · exact absurd (List.mem_map.mpr ⟨f, hf', hid⟩) hx
    · exact ih (List.nodup_cons.mp hnd).2 hf' hg'

/-- The parent pointer of a member record agrees with any projected pair. -/
theorem parentId_of_proj {st : Store} (hnd : NodupIds st) {d : FolderRec}
    (hd : d ∈ st.folders) {c : String}
    (h : (d.id, some c) ∈ foldersProj st) : d.parentId = some c := by
  have hself : (d.id, d.parentId) ∈ foldersProj st :=
    List.mem_map.mpr ⟨d, hd, rfl⟩
  have hndp : ((foldersProj st).map Prod.fst).Nodup := by
    have : (foldersProj st).map Prod.fst = st.folders.map (fun f => f.id) := by
      simp [foldersProj, List.map_map, Function.comp]
    rw [this]
    exact hnd
  exact parent_unique hndp hself h

/-- Path decomposition of a subtree: in a well-formed store, the stored
path of any folder in the subtree of `fo` (whose parent is `po`) extends
`po`'s path by `fo.name` and then further segments. -/
theorem subtree_parts_prefix {st : Store} {r : String → Nat}
    (hr : rankOkP (foldersProj st) r) (hnd : NodupIds st) (hseg : PathSegP st)
    (fo po : FolderRec) (hfo : fo ∈ st.folders) (hpo : po ∈ st.folders)
    (hfopar : fo.parentId = some po.id) :
    ∀ (n : Nat), ∀ d ∈ st.folders, r d.id ≤ n →
      DescP (foldersProj st) fo.id d.id →
      ∃ rest, pathParts d.path = pathParts po.path ++ fo.name :: rest := by
  intro n
  induction n with
  | zero =>
    intro d hd hle hdesc
    cases Relation.ReflTransGen.cases_tail hdesc with
    | inl h =>
      have hdfo : d = fo := mem_unique_key hnd hd hfo h
      obtain ⟨q, hq, hqid, hparts⟩ := hseg d hd po.id (by rw [hdfo]; exact hfopar)
      have hqpo : q = po := mem_unique_key hnd hq hpo hqid
      exact ⟨[], by rw [hparts, hdfo, hqpo]⟩
    | inr h =>
      obtain ⟨c, _, hcd⟩ := h
      have := rank_lt_of_childRelP hr hcd
      omega
  | succ n ih =>
    intro d hd hle hdesc
    cases Relation.ReflTransGen.cases_tail hdesc with
    | inl h =>
      have hdfo : d = fo := mem_unique_key hnd hd hfo h
      obtain ⟨q, hq, hqid, hparts⟩ := hseg d hd po.id (by rw [hdfo]; exact hfopar)
      have hqpo : q = po := mem_unique_key hnd hq hpo hqid
      exact ⟨[], by rw [hparts, hdfo, hqpo]⟩
    | inr h =>
      obtain ⟨c, hfc, hcd⟩ := h
      have hdpar : d.parentId = some c := parentId_of_proj hnd hd hcd
      obtain ⟨q, hq, hqid, hparts⟩ := hseg d hd c hdpar
      have hrlt : r c < r d.id := rank_lt_of_childRelP hr hcd
      obtain ⟨rest', hrest'⟩ := ih q hq (by rw [hqid]; omega) (hqid ▸ hfc)
      refine ⟨rest' ++ [d.name], ?_⟩
      rw [hparts, hrest']
      simp

theorem splitChar_mem_no_sep (sep : Char) :
    ∀ (l : List Char), ∀ piece ∈ splitChar sep l, sep ∉ piece := by
  intro l
  induction l with
  | nil =>
    intro piece hp
    simp only [splitChar, List.mem_singleton] at hp
    simp [hp]
  | cons c rest ih =>
    intro piece hp
    by_cases hc : c = sep
    · simp only [splitChar, if_pos hc, List.mem_cons] at hp
      rcases hp with rfl | hp
      · simp
      · exact ih piece hp
    · simp only [splitChar, if_neg hc, List.mem_cons] at hp
      cases hx : splitChar sep rest with
      | nil => exact absurd hx (splitChar_ne_nil sep rest)
      | cons a t =>
        rw [hx] at hp
        rcases hp with rfl | hp
        · intro hmem
          rcases List.mem_cons.mp hmem with rfl | hmem'
          · exact hc rfl
          · exact ih a (hx ▸ List.mem_cons_self a t) (by simpa using hmem')
        · exact ih piece (hx ▸ List.mem_cons_of_mem a hp)

/-- Every segment produced by `pathParts` is itself a clean single segment. -/
theorem pathParts_of_seg {x : String} {s : String} (h : x ∈ pathParts s) :
    pathParts x = [x] := by
  unfold pathParts jsSplit at h
  obtain ⟨hmem, hne⟩ := List.mem_filter.mp h
  obtain ⟨piece, hpiece, hpx⟩ := List.mem_map.mp hmem
  apply pathParts_single x (by simpa using hne)
  rw [← hpx]
  exact splitChar_mem_no_sep '/' s.data piece hpiece

/-- `folders.find?` by ID returns the member itself when IDs are unique. -/
theorem lookupFolder_mem {st : Store} (hnd : NodupIds st) {fo : FolderRec}
    (hfo : fo ∈ st.folders) : lookupFolder st fo.id = some fo := by
  cases hlk : lookupFolder st fo.id with
  | none =>
    have := List.find?_eq_none.mp hlk fo hfo
    simp at this
  | some g =>
    have hg : g ∈ st.folders := List.mem_of_find?_eq_some hlk
    have hgid : g.id = fo.id := by
      have := List.find?_some hlk
      simpa using this
    rw [mem_unique_key hnd hg hfo hgid]

/-- Identity-level record correspondence across a metadata-preserving
rewrite of the folder list. -/
theorem record_of_meta {a b : Store}
    (h : a.folders.map fpMeta = b.folders.map fpMeta) {f : FolderRec}
    (hf : f ∈ a.folders) :
    ∃ g ∈ b.folders, g.id = f.id ∧ g.parentId = f.parentId ∧ g.name = f.name := by
  have hm : fpMeta f ∈ b.folders.map fpMeta := by
    rw [← h]
    exact List.mem_map.mpr ⟨f, hf, rfl⟩
  obtain ⟨g, hg, hge⟩ := List.mem_map.mp hm
  refine ⟨g, hg, ?_, ?_, ?_⟩
  · exact congrArg (fun x => x.1) hge
  · exact congrArg (fun x => x.2.1) hge
  · exact congrArg (fun x => x.2.2.1) hge

/-- Decidable certificate for `PathSegP`. -/
def pathSegB (st : Store) : Bool :=
  st.folders.all (fun f =>
    match f.parentId with
    | none => true
    | some pid =>
      match st.folders.find? (fun q => q.id == pid) with
      | none => false
      | some q => decide (pathParts f.path = pathParts q.path ++ [f.name]))

theorem pathSegP_of_B {st : Store} (h : pathSegB st = true) : PathSegP st := by
  intro f hf pid hpar
  have hall := (List.all_eq_true.mp h) f hf
  rw [hpar] at hall
  simp only at hall
  cases hfind : st.folders.find? (fun q => q.id == pid) with
  | none => rw [hfind] at hall; cases hall
  | some q =>
    rw [hfind] at hall
    simp only [decide_eq_true_eq] at hall
    have hq : q ∈ st.folders := List.mem_of_find?_eq_some hfind
    have hqid : q.id = pid := by
      have := List.find?_some hfind
      simpa using this
    exact ⟨q, hq, hqid, hall⟩

theorem joinPath_eq (pp n : String) :
    (if pp ≠ "" then pp ++ "/" ++ n else "/" ++ n) = pp ++ "/" ++ n := by
  by_cases h : pp = ""
  · subst h
    rfl
  · rw [if_pos h]

theorem ids_eq_of_proj {a b : Store} (h : foldersProj a = foldersProj b) :
    a.folders.map (fun f => f.id) = b.folders.map (fun f => f.id) := by
  have := congrArg (List.map Prod.fst) h
  simpa [foldersProj, List.map_map, Function.comp] using this

theorem nodupIds_of_proj {a b : Store} (h : foldersProj a = foldersProj b)
    (hnd : NodupIds b) : NodupIds a := by
  unfold NodupIds
  rw [ids_eq_of_proj h]
  exact hnd

theorem record_of_proj {st : Store} {x : String × Option String}
    (h : x ∈ foldersProj st) :
    ∃ f ∈ st.folders, f.id = x.1 ∧ f.parentId = x.2 := by
  simp only [foldersProj, List.mem_map] at h
  obtain ⟨f, hf, hfx⟩ := h
  exact ⟨f, hf, congrArg Prod.fst hfx, congrArg Prod.snd hfx⟩

theorem mem_childIds {st1 : Store} {fid c : String}
    (h : (c, some fid) ∈ foldersProj st1) :
    c ∈ (st1.folders.filter (fun f => decide (f.parentId = some fid))).map
      (fun f => f.id) := by
  obtain ⟨f, hf, hfid, hfpar⟩ := record_of_proj h
  simp only [List.mem_map, List.mem_filter, decide_eq_true_eq]
  exact ⟨f, ⟨hf, hfpar⟩, hfid⟩

/-- The local invariant established by `updatePathsRecursively`: a folder's
stored path is its parent's path plus slash plus its own name. -/
def ParentEqn (s : Store) (g' : FolderRec) : Prop :=
  ∃ q' ∈ s.folders, g'.parentId = some q'.id ∧
    g'.path = q'.path ++ "/" ++ g'.name

/-- L3: under unique IDs and a rank certificate, a completed
`updatePathsRecursively(fid, pp)` leaves the `fid` record with path
`pp ++ "/" ++ name` and establishes the local path invariant for every
strict descendant of `fid`. -/
theorem updatePathsRec_paths (now : Nat) (r : String → Nat) :
    ∀ (fuel : Nat) (st : Store) (fid pp : String) (st' : Store),
      rankOkP (foldersProj st) r → NodupIds st →
      updatePathsRec now fuel st fid pp = some st' →
      (∃ fo ∈ st.folders, fo.id = fid) →
      (∀ g' ∈ st'.folders, g'.id = fid → g'.path = pp ++ "/" ++ g'.name) ∧
      (∀ g' ∈ st'.folders, DescP (foldersProj st) fid g'.id → g'.id ≠ fid →
        ParentEqn st' g') := by
  intro fuel
  induction fuel with
  | zero => intro st fid pp st' _ _ h _; cases h
  | succ fuel ih =>
    intro st fid pp st' hrank hnd h hfid
    cases hlk : lookupFolder st fid with
    | none =>
      exfalso
      obtain ⟨fo, hfo, hfoid⟩ := hfid
      have := List.find?_eq_none.mp hlk fo hfo
      simp [hfoid] at this
    | some folder =>
      have hfolder_mem : folder ∈ st.folders := List.mem_of_find?_eq_some hlk
      have hfolder_id : folder.id = fid := by
        have := List.find?_some hlk
        simpa using this
      simp only [updatePathsRec, hlk] at h
      set newPath := if pp ≠ "" then pp ++ "/" ++ folder.name
                     else "/" ++ folder.name with hnewPath
      set st1 : Store := { st with folders := st.folders.map (fun g =>
        if g.id = fid then { g with path := newPath, modified := now } else g) }
        with hst1
      set fidRec : FolderRec := { folder with path := newPath, modified := now }
        with hfidRec
      clear_value newPath st1 fidRec
      have hfolders1 : st1.folders = st.folders.map (fun g =>
          if g.id = fid then { g with path := newPath, modified := now } else g) := by
        rw [hst1]
      rw [← hfolders1] at h
      have hproj1 : foldersProj st1 = foldersProj st := by
        rw [hst1]
        exact foldersProj_map_update (fun g => by by_cases hg : g.id = fid <;> simp [hg])
      have hnd1 : NodupIds st1 := nodupIds_of_proj hproj1 hnd
      have hndp : ((foldersProj st).map Prod.fst).Nodup := by
        have heq : (foldersProj st).map Prod.fst = st.folders.map (fun f => f.id) := by
          simp [foldersProj, List.map_map, Function.comp]
        rw [heq]
        exact hnd
      have hfidRec_id : fidRec.id = fid := by rw [hfidRec]; exact hfolder_id
      have hfidRec_path : fidRec.path = newPath := by rw [hfidRec]
      have hfidRec_name : fidRec.name = folder.name := by rw [hfidRec]
      have hfidRec_mem : fidRec ∈ st1.folders := by
        rw [hfolders1, hfidRec]
        exact List.mem_map.mpr ⟨folder, hfolder_mem, by simp [hfolder_id]⟩
      have hchild_rel : ∀ c ∈ (st1.folders.filter
          (fun f => decide (f.parentId = some fid))).map (fun f => f.id),
          childRelP (foldersProj st) fid c := by
        intro c hc
        simp only [List.mem_map, List.mem_filter, decide_eq_true_eq] at hc
        obtain ⟨f, ⟨hf, hpar⟩, rfl⟩ := hc
        rw [← hproj1]
        exact List.mem_map.mpr ⟨f, hf, by rw [hpar]⟩
      have hchild_nodup : ((st1.folders.filter
          (fun f => decide (f.parentId = some fid))).map (fun f => f.id)).Nodup := by
        have hsub : ((st1.folders.filter
            (fun f => decide (f.parentId = some fid))).map (fun f => f.id)).Sublist
            (st1.folders.map (fun f => f.id)) :=
          (List.filter_sublist _).map _
        exact hsub.nodup hnd1
      have foldLemma : ∀ (l : List String) (D : String → Prop) (s res : Store),
          (∀ c ∈ l, childRelP (foldersProj st) fid c) → l.Nodup →
          foldersProj s = foldersProj st →
          fidRec ∈ s.folders →
          (∀ c ∈ l, ∀ gid, DescP (foldersProj st) c gid → ¬ D gid) →
          (∀ g' ∈ s.folders, D g'.id → ParentEqn s g') →
          l.foldlM (fun acc cid => updatePathsRec now fuel acc cid newPath) s =
            some res →
          foldersProj res = foldersProj st ∧ fidRec ∈ res.folders ∧
          (∀ g' ∈ res.folders,
            (D g'.id ∨ ∃ c ∈ l, DescP (foldersProj st) c g'.id) →
            ParentEqn res g') := by
        intro l
        induction l with
        | nil =>
          intro D s res _ _ hps hfm _ hPs hfold
          simp only [List.foldlM_nil] at hfold
          cases hfold
          refine ⟨hps, hfm, fun g' hg' hD => ?_⟩
          rcases hD with hD | ⟨c, hc, _⟩
          · exact hPs g' hg' hD
          · exact absurd hc (List.not_mem_nil c)
        | cons c l ihl =>
          intro D s res hrel hndl hps hfm hdisj hPs hfold
          simp only [List.foldlM_cons] at hfold
          cases hs : updatePathsRec now fuel s c newPath with
          | none => rw [hs] at hfold; cases hfold
          | some s1 =>
            rw [hs] at hfold
            have hrel_c : childRelP (foldersProj st) fid c :=
              hrel c (List.mem_cons_self c l)
            have hrank_s : rankOkP (foldersProj s) r := by rw [hps]; exact hrank
            have hnd_s : NodupIds s := nodupIds_of_proj hps hnd
            have hproj_s1 : foldersProj s1 = foldersProj st :=
              (foldersProj_of_meta (updatePathsRec_meta now fuel s c _ s1 hs).1).trans hps
            have hnd_s1 : NodupIds s1 := nodupIds_of_proj hproj_s1 hnd
            have hcpresent : ∃ co ∈ s.folders, co.id = c := by
              obtain ⟨co, hco, hcoid, _⟩ := record_of_proj (x := (c, some fid))
                (by rw [hps]; exact hrel_c)
              exact ⟨co, hco, hcoid⟩
            have hchild := ih s c newPath s1 hrank_s hnd_s hs hcpresent
            have hrfid_c : r fid < r c := rank_lt_of_childRelP hrank hrel_c
            have hfm1 : fidRec ∈ s1.folders := by
              apply updatePathsRec_outside now fuel s c newPath s1 hs fidRec hfm
              rw [hps, hfidRec_id]
              exact not_descP_of_rank_lt hrank hrfid_c
            have hP1 : ∀ g' ∈ s1.folders,
                (D g'.id ∨ DescP (foldersProj st) c g'.id) → ParentEqn s1 g' := by
              intro g' hg' hD'
              rcases hD' with hD | hDc
              · have hnotc : ¬ DescP (foldersProj st) c g'.id :=
                  fun hdc => hdisj c (List.mem_cons_self c l) g'.id hdc hD
                have hx : ((g'.id, g'.parentId) : String × Option String) ∈
                    foldersProj s := by
                  rw [hps, ← hproj_s1]
                  exact List.mem_map.mpr ⟨g', hg', rfl⟩
                obtain ⟨g0, hg0, hg0id, hg0par⟩ := record_of_proj hx
                have hg0id' : g0.id = g'.id := hg0id
                have hg0surv : g0 ∈ s1.folders := by
                  apply updatePathsRec_outside now fuel s c newPath s1 hs g0 hg0
                  rw [hps, hg0id']
                  exact hnotc
                have hgg0 : g' = g0 := mem_unique_key hnd_s1 hg' hg0surv hg0id'.symm
                obtain ⟨q, hq, hqpar, hqpath⟩ := hPs g0 hg0
                  (by rw [hg0id']; exact hD)
                have hqsurv : q ∈ s1.folders := by
                  apply updatePathsRec_outside now fuel s c newPath s1 hs q hq
                  rw [hps]
                  intro hdq
                  apply hnotc
                  rw [← hg0id']
                  exact Relation.ReflTransGen.tail hdq
                    (show childRelP (foldersProj st) q.id g0.id by
                      rw [← hps]
                      exact List.mem_map.mpr ⟨g0, hg0, by rw [hqpar]⟩)
                exact ⟨q, hqsurv, by rw [hgg0, hqpar], by rw [hgg0, hqpath]⟩
              · by_cases hgc : g'.id = c
                · have hpath := hchild.1 g' hg' hgc
                  refine ⟨fidRec, hfm1, ?_, ?_⟩
                  · rw [hfidRec_id]
                    apply parentId_of_proj hnd_s1 hg'
                    rw [hproj_s1, hgc]
                    exact hrel_c
                  · rw [hpath, hfidRec_path]
                · exact hchild.2 g' hg' (by rw [hps]; exact hDc) hgc
            have hdisj' : ∀ c' ∈ l, ∀ gid,
                DescP (foldersProj st) c' gid →
                ¬ (D gid ∨ DescP (foldersProj st) c gid) := by
              intro c' hc' gid hdesc hor
              rcases hor with hD | hDc
              · exact hdisj c' (List.mem_cons_of_mem c hc') gid hdesc hD
              · have hne : c ≠ c' := by
                  intro hcc
                  exact (List.nodup_cons.mp hndl).1 (by rw [hcc]; exact hc')
                exact sibling_subtrees_disjoint hrank hndp
                  hrel_c (hrel c' (List.mem_cons_of_mem c hc')) hne hDc hdesc
            have hres := ihl (fun gid => D gid ∨ DescP (foldersProj st) c gid)
              s1 res (fun c' hc' => hrel c' (List.mem_cons_of_mem c hc'))
              (List.nodup_cons.mp hndl).2 hproj_s1 hfm1 hdisj' hP1 hfold
            refine ⟨hres.1, hres.2.1, fun g' hg' hD => ?_⟩
            apply hres.2.2 g' hg'
            rcases hD with hD | ⟨c'', hc'', hdc''⟩
            · exact Or.inl (Or.inl hD)
            · rcases List.mem_cons.mp hc'' with rfl | hc''l
              · exact Or.inl (Or.inr hdc'')
              · exact Or.inr ⟨c'', hc''l, hdc''⟩
      cases hfold : ((st1.folders.filter
          (fun f => decide (f.parentId = some fid))).map (fun f => f.id)).foldlM
          (fun acc cid => updatePathsRec now fuel acc cid newPath) st1 with
      | none => rw [hfold] at h; cases h
      | some st2 =>
        rw [hfold] at h
        cases h
        obtain ⟨hproj2, hfm2, hP2⟩ := foldLemma _ (fun _ => False) st1 st2
          hchild_rel hchild_nodup hproj1 hfidRec_mem
          (fun _ _ _ _ hF => hF) (fun _ _ hF => hF.elim) hfold
        have hnd2 : NodupIds st2 := nodupIds_of_proj hproj2 hnd
        constructor
        · intro g' hg' hgid
          have hg'fid : g' = fidRec :=
            mem_unique_key hnd2 hg' hfm2 (hgid.trans hfidRec_id.symm)
          rw [hg'fid]
          show fidRec.path = pp ++ "/" ++ fidRec.name
          rw [hfidRec_path, hfidRec_name, hnewPath, joinPath_eq]
        · intro g' hg' hdesc hne
          cases Relation.ReflTransGen.cases_head hdesc with
          | inl hh => exact absurd hh.symm hne
          | inr hh =>
            obtain ⟨c, hrel_c, hdesc_c⟩ := hh
            have hcmem : c ∈ (st1.folders.filter
                (fun f => decide (f.parentId = some fid))).map (fun f => f.id) :=
              mem_childIds (by rw [hproj1]; exact hrel_c)
            exact hP2 g' hg' (Or.inr ⟨c, hcmem, hdesc_c⟩)

/-- Case analysis for a member of a single-record rewrite of the folder
list (the shape `renameFolder` and `moveFolder` both use). -/
theorem mem_map_update_cases {l : List FolderRec} {u : FolderRec → FolderRec}
    {fid : String} {f : FolderRec}
    (hf : f ∈ l.map (fun g => if g.id = fid then u g else g)) :
    ∃ g ∈ l, (g.id = fid ∧ f = u g) ∨ (g.id ≠ fid ∧ f = g) := by
  obtain ⟨g, hg, hgf⟩ := List.mem_map.mp hf
  by_cases hgid : g.id = fid
  · exact ⟨g, hg, Or.inl ⟨hgid, by rw [← hgf, if_pos hgid]⟩⟩
  · exact ⟨g, hg, Or.inr ⟨hgid, by rw [← hgf, if_neg hgid]⟩⟩

theorem mem_map_update_of_ne {l : List FolderRec} {u : FolderRec → FolderRec}
    {fid : String} {g : FolderRec} (hg : g ∈ l) (hne : g.id ≠ fid) :
    g ∈ l.map (fun x => if x.id = fid then u x else x) :=
  List.mem_map.mpr ⟨g, hg, by rw [if_neg hne]⟩

theorem ids_map_update {l : List FolderRec} {u : FolderRec → FolderRec}
    {fid : String} (hu : ∀ g, (u g).id = g.id) :
    (l.map (fun g => if g.id = fid then u g else g)).map (fun f => f.id) =
      l.map (fun f => f.id) := by
  rw [List.map_map]
  apply List.map_congr_left
  intro g _
  by_cases hg : g.id = fid <;> simp [Function.comp, hg, hu]

/-- An edge of the reparented graph is either the rewritten edge of `fid`
itself or an untouched edge of the original graph. -/
theorem proj_reparent_elim {st : Store} {fid npid : String} {c : String}
    {b : Option String}
    (h : (c, b) ∈ foldersProj { st with folders := st.folders.map (fun g =>
      if g.id = fid then { g with parentId := some npid } else g) }) :
    (c = fid ∧ b = some npid) ∨ (c ≠ fid ∧ (c, b) ∈ foldersProj st) := by
  obtain ⟨g1, hg1, hgx⟩ := List.mem_map.mp h
  obtain ⟨g, hg, hcase⟩ := mem_map_update_cases hg1
  rcases hcase with ⟨hgid, heq⟩ | ⟨hgid, heq⟩
  · left
    rw [heq] at hgx
    have h1 : g.id = c := congrArg Prod.fst hgx
    have h2 : (some npid : Option String) = b := congrArg Prod.snd hgx
    exact ⟨h1.symm.trans hgid, h2.symm⟩
  · right
    rw [heq] at hgx
    have h1 : g.id = c := congrArg Prod.fst hgx
    exact ⟨fun hc => hgid (h1.trans hc), List.mem_map.mpr ⟨g, hg, hgx⟩⟩

/-- Descendants of `fid` in the reparented graph are `fid` itself or
descendants of `fid` in the original graph. -/
theorem desc_reparent {st : Store} {fid npid x : String}
    (h : DescP (foldersProj { st with folders := st.folders.map (fun g =>
      if g.id = fid then { g with parentId := some npid } else g) }) fid x) :
    x = fid ∨ DescP (foldersProj st) fid x := by
  induction h with
  | refl => exact Or.inl rfl
  | tail hb hrel ih =>
    rcases proj_reparent_elim hrel with ⟨hcfid, _⟩ | ⟨_, hold⟩
    · exact Or.inl hcfid
    · rcases ih with rfl | hdesc
      · exact Or.inr (Relation.ReflTransGen.single hold)
      · exact Or.inr (Relation.ReflTransGen.tail hdesc hold)

/-- The full well-formedness transfer for `updatePathsRecursively`: starting
from an edited store `st1` whose records outside the subtree of `fid` still
satisfy the path invariant and whose subtree names are clean segments, a
completed run restores every global invariant on the result, keeps records
outside the subtree verbatim, and establishes the local path equation on
the whole subtree. -/
theorem updatePathsRec_WF {r : String → Nat} (now fuel : Nat)
    (st1 st' : Store) (fid pp : String)
    (h : updatePathsRec now fuel st1 fid pp = some st')
    (hr : rankOkP (foldersProj st1) r) (hnd : NodupIds st1)
    (f1 : FolderRec) (hf1 : f1 ∈ st1.folders) (hf1id : f1.id = fid)
    (p1 : FolderRec) (hp1 : p1 ∈ st1.folders)
    (hf1par : f1.parentId = some p1.id)
    (hpp : p1.path = pp)
    (hnames : ∀ f ∈ st1.folders, DescP (foldersProj st1) fid f.id →
      pathParts f.name = [f.name])
    (hroot1 : ParentNoneRoot st1)
    (hsegOut : ∀ f ∈ st1.folders, ¬ DescP (foldersProj st1) fid f.id →
      ∀ pid', f.parentId = some pid' →
      ∃ q ∈ st1.folders, q.id = pid' ∧
        pathParts f.path = pathParts q.path ++ [f.name])
    (huniq1 : NameUniqP st1) :
    rankOkP (foldersProj st') r ∧ NodupIds st' ∧ ParentNoneRoot st' ∧
    PathSegP st' ∧ NameUniqP st' ∧
    (∀ g ∈ st1.folders, ¬ DescP (foldersProj st1) fid g.id → g ∈ st'.folders) ∧
    (∀ g' ∈ st'.folders, DescP (foldersProj st1) fid g'.id → ParentEqn st' g') := by
  have hmeta := (updatePathsRec_meta now fuel st1 fid pp st' h).1
  have hproj : foldersProj st' = foldersProj st1 := foldersProj_of_meta hmeta
  have hr' : rankOkP (foldersProj st') r := by rw [hproj]; exact hr
  have hnd' : NodupIds st' := nodupIds_of_proj hproj hnd
  have hndp1 : ((foldersProj st1).map Prod.fst).Nodup := by
    have heq : (foldersProj st1).map Prod.fst = st1.folders.map (fun f => f.id) := by
      simp [foldersProj, List.map_map, Function.comp]
    rw [heq]
    exact hnd
  have hL3 := updatePathsRec_paths now r fuel st1 fid pp st' hr hnd h ⟨f1, hf1, hf1id⟩
  have hout := updatePathsRec_outside now fuel st1 fid pp st' h
  have hedge1 : (fid, some p1.id) ∈ foldersProj st1 :=
    List.mem_map.mpr ⟨f1, hf1, by rw [hf1id, hf1par]⟩
  have hrp1 : r p1.id < r fid := hr (fid, some p1.id) hedge1 p1.id rfl
  have hp1out : ¬ DescP (foldersProj st1) fid p1.id :=
    not_descP_of_rank_lt hr hrp1
  have hp1surv : p1 ∈ st'.folders := hout p1 hp1 hp1out
  have houtExact : ∀ f' ∈ st'.folders, ¬ DescP (foldersProj st1) fid f'.id →
      f' ∈ st1.folders := by
    intro f' hf' hnotin
    obtain ⟨g, hg, hgid, _, _⟩ := record_of_meta hmeta hf'
    have hgout : ¬ DescP (foldersProj st1) fid g.id := by rw [hgid]; exact hnotin
    have hgsurv : g ∈ st'.folders := hout g hg hgout
    rw [mem_unique_key hnd' hf' hgsurv hgid.symm]
    exact hg
  have hInside : ∀ g' ∈ st'.folders, DescP (foldersProj st1) fid g'.id →
      ParentEqn st' g' := by
    intro g' hg' hins
    by_cases hgid : g'.id = fid
    · refine ⟨p1, hp1surv, ?_, ?_⟩
      · have hself : (g'.id, g'.parentId) ∈ foldersProj st1 := by
          rw [← hproj]
          exact List.mem_map.mpr ⟨g', hg', rfl⟩
        rw [hgid] at hself
        exact parent_unique hndp1 hself hedge1
      · rw [hL3.1 g' hg' hgid, hpp]
    · exact hL3.2 g' hg' hins hgid
  have hnames' : ∀ f' ∈ st'.folders, DescP (foldersProj st1) fid f'.id →
      pathParts f'.name = [f'.name] := by
    intro f' hf' hins
    obtain ⟨g, hg, hgid, _, hgname⟩ := record_of_meta hmeta hf'
    rw [← hgname]
    exact hnames g hg (by rw [hgid]; exact hins)
  refine ⟨hr', hnd', ?_, ?_, ?_, hout, hInside⟩
  · -- ParentNoneRoot
    intro f' hf' hnone
    have hfout : ¬ DescP (foldersProj st1) fid f'.id := by
      intro hins
      have hself : (f'.id, (none : Option String)) ∈ foldersProj st1 := by
        rw [← hproj]
        exact List.mem_map.mpr ⟨f', hf', by rw [hnone]⟩
      cases Relation.ReflTransGen.cases_tail hins with
      | inl hh =>
        have : (none : Option String) = some p1.id :=
          parent_unique hndp1 (hh ▸ hself) hedge1
        cases this
      | inr hh =>
        obtain ⟨c, _, hc⟩ := hh
        have : (none : Option String) = some c := parent_unique hndp1 hself hc
        cases this
    have hmem1 := houtExact f' hf' hfout
    exact hroot1 f' hmem1 hnone
  · -- PathSegP
    intro f' hf' pid' hpar'
    by_cases hins : DescP (foldersProj st1) fid f'.id
    · obtain ⟨q', hq', hq'par, hq'path⟩ := hInside f' hf' hins
      have hpid : q'.id = pid' := by
        have := hpar'.symm.trans hq'par
        exact (Option.some.injEq _ _ ▸ this).symm
      refine ⟨q', hq', hpid, ?_⟩
      have := congrArg pathParts hq'path
      rw [pathParts_append, hnames' f' hf' hins] at this
      exact this
    · have hmem1 := houtExact f' hf' hins
      obtain ⟨q, hq, hqid, hqparts⟩ := hsegOut f' hmem1 hins pid' hpar'
      have hqout : ¬ DescP (foldersProj st1) fid q.id := by
        intro hdq
        apply hins
        refine Relation.ReflTransGen.tail hdq ?_
        show (f'.id, some q.id) ∈ foldersProj st1
        rw [hqid, ← hpar']
        exact List.mem_map.mpr ⟨f', hmem1, rfl⟩
      exact ⟨q, hout q hq hqout, hqid, hqparts⟩
  · -- NameUniqP
    intro f' hf' g' hg' hparEq hnameEq
    obtain ⟨f0, hf0, hf0id, hf0par, hf0name⟩ := record_of_meta hmeta hf'
    obtain ⟨g0, hg0, hg0id, hg0par, hg0name⟩ := record_of_meta hmeta hg'
    have := huniq1 f0 hf0 g0 hg0 (by rw [hf0par, hg0par, hparEq])
      (by rw [hf0name, hg0name, hnameEq])
    rw [← hf0id, ← hg0id]
    exact this

/-- Full subtree contract of `renameFolder`: on a well-formed store, a
completed rename re-derives every subtree path under the new name,
preserves the global path/name invariants, keeps records outside the
subtree verbatim, and kills resolution of every old subtree path. -/
theorem renameFolder_paths (now fuel : Nat) (st : Store) (r : String → Nat)
    (hr : rankOkP (foldersProj st) r) (hnd : NodupIds st)
    (hroot : ParentNoneRoot st) (hseg : PathSegP st) (huniq : NameUniqP st)
    (fo po : FolderRec) (hfo : fo ∈ st.folders) (hpo : po ∈ st.folders)
    (hfopar : fo.parentId = some po.id)
    (newName : String) (st' : Store)
    (hnn : newName ≠ "") (hns : '/' ∉ newName.data)
    (hnosib : ∀ g ∈ st.folders, g.parentId = some po.id → g.name ≠ newName)
    (h : renameFolder now fuel st fo.id newName = some (Except.ok st')) :
    PathSegP st' ∧ NameUniqP st' ∧
    (∀ g' ∈ st'.folders, DescP (foldersProj st') fo.id g'.id → ParentEqn st' g') ∧
    (∀ g ∈ st.folders, ¬ DescP (foldersProj st) fo.id g.id → g ∈ st'.folders) ∧
    (∀ d ∈ st.folders, DescP (foldersProj st) fo.id d.id →
      resolveFolderPath st' d.path = none) := by
  have hlkfo := lookupFolder_mem hnd hfo
  have hlkpo := lookupFolder_mem hnd hpo
  simp only [renameFolder, hlkfo, hfopar, hlkpo] at h
  have hppEq : (if po.path ≠ "" then po.path else "") = po.path := by
    by_cases hp : po.path = ""
    · simp [hp]
    · rw [if_pos hp]
  rw [hppEq] at h
  set stR : Store := { st with folders := st.folders.map (fun g =>
    if g.id = fo.id then { g with name := newName } else g) } with hstR
  clear_value stR
  cases hu : updatePathsRec now fuel stR fo.id po.path with
  | none => rw [hu] at h; simp at h
  | some s =>
    rw [hu] at h
    simp only [Option.map_some'] at h
    injection h with h2
    injection h2 with h3
    subst h3
    have hfoldersR : stR.folders = st.folders.map (fun g =>
        if g.id = fo.id then { g with name := newName } else g) := by rw [hstR]
    have hprojR : foldersProj stR = foldersProj st := by
      rw [hstR]
      exact foldersProj_map_update (fun g => by by_cases hg : g.id = fo.id <;> simp [hg])
    have hrR : rankOkP (foldersProj stR) r := by rw [hprojR]; exact hr
    have hndR : NodupIds stR := nodupIds_of_proj hprojR hnd
    have hedge : (fo.id, some po.id) ∈ foldersProj st :=
      List.mem_map.mpr ⟨fo, hfo, by rw [hfopar]⟩
    have hrpofo : r po.id < r fo.id := hr _ hedge po.id rfl
    have hpone : po.id ≠ fo.id := fun hpe => absurd (hpe ▸ hrpofo) (lt_irrefl _)
    have hf1 : ({ fo with name := newName } : FolderRec) ∈ stR.folders := by
      rw [hfoldersR]
      exact List.mem_map.mpr ⟨fo, hfo, by simp⟩
    have hp1 : po ∈ stR.folders := by
      rw [hfoldersR]
      exact mem_map_update_of_ne hpo hpone
    have hnamesR : ∀ f ∈ stR.folders, DescP (foldersProj stR) fo.id f.id →
        pathParts f.name = [f.name] := by
      intro f hf hdesc
      rw [hprojR] at hdesc
      obtain ⟨g, hg, hcase⟩ := mem_map_update_cases (by rw [hfoldersR] at hf; exact hf)
      rcases hcase with ⟨hgid, heq⟩ | ⟨hgid, heq⟩
      · have hfn : f.name = newName := by rw [heq]
        rw [hfn]
        exact pathParts_single newName hnn hns
      · rw [heq] at hdesc ⊢
        cases Relation.ReflTransGen.cases_tail hdesc with
        | inl hh => exact absurd hh hgid
        | inr hh =>
          obtain ⟨c, _, hc⟩ := hh
          have hgpar : g.parentId = some c := parentId_of_proj hnd hg hc
          obtain ⟨q, hq, hqid2, hparts⟩ := hseg g hg c hgpar
          exact pathParts_of_seg (show g.name ∈ pathParts g.path by rw [hparts]; simp)
    have hrootR : ParentNoneRoot stR := by
      intro f hf hnone
      obtain ⟨g, hg, hcase⟩ := mem_map_update_cases (by rw [hfoldersR] at hf; exact hf)
      rcases hcase with ⟨hgid, heq⟩ | ⟨hgid, heq⟩
      · exfalso
        have hgfo : g = fo := mem_unique_key hnd hg hfo hgid
        have hthis : f.parentId = fo.parentId := by rw [heq, hgfo]
        rw [hnone, hfopar] at hthis
        cases hthis
      · rw [heq] at hnone ⊢
        exact hroot g hg hnone
    have hsegOutR : ∀ f ∈ stR.folders, ¬ DescP (foldersProj stR) fo.id f.id →
        ∀ pid', f.parentId = some pid' →
        ∃ q ∈ stR.folders, q.id = pid' ∧
          pathParts f.path = pathParts q.path ++ [f.name] := by
      intro f hf hnotin pid' hpar'
      obtain ⟨g, hg, hcase⟩ := mem_map_update_cases (by rw [hfoldersR] at hf; exact hf)
      rcases hcase with ⟨hgid, heq⟩ | ⟨hgid, heq⟩
      · exfalso
        apply hnotin
        have hfid : f.id = fo.id := by rw [heq]; exact hgid
        rw [hfid]
        exact Relation.ReflTransGen.refl
      · rw [heq] at hpar' hnotin ⊢
        obtain ⟨q, hq, hqid2, hparts⟩ := hseg g hg pid' hpar'
        have hqne : q.id ≠ fo.id := by
          intro hqe
          apply hnotin
          rw [hprojR]
          exact Relation.ReflTransGen.single
            (List.mem_map.mpr ⟨g, hg, by
              rw [hpar', show pid' = fo.id from hqid2.symm.trans hqe]⟩)
        exact ⟨q, by rw [hfoldersR]; exact mem_map_update_of_ne hq hqne, hqid2, hparts⟩
    have huniqR : NameUniqP stR := by
      intro f hf g hg hparEq hnameEq
      obtain ⟨f0, hf0, hfc⟩ := mem_map_update_cases (by rw [hfoldersR] at hf; exact hf)
      obtain ⟨g0, hg0, hgc⟩ := mem_map_update_cases (by rw [hfoldersR] at hg; exact hg)
      rcases hfc with ⟨hf0id, hfeq⟩ | ⟨hf0id, hfeq⟩ <;>
        rcases hgc with ⟨hg0id, hgeq⟩ | ⟨hg0id, hgeq⟩
      · have h1 : f.id = fo.id := by rw [hfeq]; exact hf0id
        have h2 : g.id = fo.id := by rw [hgeq]; exact hg0id
        rw [h1, h2]
      · exfalso
        have hf0fo : f0 = fo := mem_unique_key hnd hf0 hfo hf0id
        have hgpar : g0.parentId = some po.id := by
          have hfp : f.parentId = fo.parentId := by rw [hfeq, hf0fo]
          have hgp : g.parentId = g0.parentId := by rw [hgeq]
          rw [← hgp, ← hparEq, hfp, hfopar]
        have hgname : g0.name = newName := by
          have hfn : f.name = newName := by rw [hfeq]
          have hgn : g.name = g0.name := by rw [hgeq]
          rw [← hgn, ← hnameEq, hfn]
        exact hnosib g0 hg0 hgpar hgname
      · exfalso
        have hg0fo : g0 = fo := mem_unique_key hnd hg0 hfo hg0id
        have hfpar : f0.parentId = some po.id := by
          have hgp : g.parentId = fo.parentId := by rw [hgeq, hg0fo]
          have hfp : f.parentId = f0.parentId := by rw [hfeq]
          rw [← hfp, hparEq, hgp, hfopar]
        have hfname : f0.name = newName := by
          have hgn : g.name = newName := by rw [hgeq]
          have hfn : f.name = f0.name := by rw [hfeq]
          rw [← hfn, hnameEq, hgn]
        exact hnosib f0 hf0 hfpar hfname
      · have hfp : f.parentId = f0.parentId := by rw [hfeq]
        have hgp : g.parentId = g0.parentId := by rw [hgeq]
        have hfn : f.name = f0.name := by rw [hfeq]
        have hgn : g.name = g0.name := by rw [hgeq]
        have hids := huniq f0 hf0 g0 hg0 (by rw [← hfp, ← hgp, hparEq])
          (by rw [← hfn, ← hgn, hnameEq])
        have h1 : f.id = f0.id := by rw [hfeq]
        have h2 : g.id = g0.id := by rw [hgeq]
        rw [h1, h2, hids]
    obtain ⟨hr', hnd', hroot', hseg', huniq', hout', hin'⟩ :=
      updatePathsRec_WF now fuel stR s fo.id po.path hu hrR hndR
        { fo with name := newName } hf1 rfl po hp1 hfopar rfl
        hnamesR hrootR hsegOutR huniqR
    have hmetaR := (updatePathsRec_meta now fuel stR fo.id po.path s hu).1
    have hprojS : foldersProj s = foldersProj stR := foldersProj_of_meta hmetaR
    refine ⟨hseg', huniq', ?_, ?_, ?_⟩
    · intro g' hg' hdesc
      rw [hprojS, hprojR] at hdesc
      apply hin' g' hg'
      rw [hprojR]
      exact hdesc
    · intro g hg hnotin
      have hgne : g.id ≠ fo.id := fun hge =>
        hnotin (by rw [hge]; exact Relation.ReflTransGen.refl)
      apply hout' g (by rw [hfoldersR]; exact mem_map_update_of_ne hg hgne)
      rw [hprojR]
      exact hnotin
    · intro d hd hdd
      obtain ⟨rest, hparts⟩ := subtree_parts_prefix hr hnd hseg fo po hfo hpo hfopar
        (r d.id) d hd (le_refl _) hdd
      have hposurv : po ∈ s.folders := by
        apply hout' po hp1
        rw [hprojR]
        exact not_descP_of_rank_lt hr hrpofo
      have hnochild : ∀ g' ∈ s.folders, g'.parentId = some po.id →
          g'.name ≠ fo.name := by
        intro g' hg' hg'par
        obtain ⟨g1, hg1, hg1id, hg1par, hg1name⟩ := record_of_meta hmetaR hg'
        obtain ⟨g0, hg0, hcase⟩ := mem_map_update_cases
          (by rw [hfoldersR] at hg1; exact hg1)
        rcases hcase with ⟨hg0id, heq⟩ | ⟨hg0id, heq⟩
        · have hgn : g'.name = newName := by rw [← hg1name, heq]
          rw [hgn]
          exact fun hc => (hnosib fo hfo hfopar) hc.symm
        · intro hcontr
          have h1 : g0.parentId = some po.id := by
            have e1 : g1.parentId = g0.parentId := by rw [heq]
            rw [← e1, hg1par, hg'par]
          have h2 : g0.name = fo.name := by
            have e2 : g1.name = g0.name := by rw [heq]
            rw [← e2, hg1name, hcontr]
          exact hg0id (huniq g0 hg0 fo hfo (by rw [h1, hfopar]) h2)
      have hres := resolve_fails_below hr' hnd' hroot' hseg' huniq' po hposurv
        fo.name hnochild rest
      show resolveFolderPath s d.path = none
      unfold resolveFolderPath
      rw [hparts]
      exact hres

/-- Full subtree contract of `moveFolder`: on a well-formed store, a
completed move (certified acyclic after the reparent, with the new parent
not the old one and no name clash under the new parent) re-derives every
subtree path under the new parent, preserves the global path/name
invariants, keeps records outside the subtree verbatim, and kills
resolution of every old subtree path. -/
theorem moveFolder_paths (now fuel : Nat) (st : Store) (r r2 : String → Nat)
    (hr : rankOkP (foldersProj st) r) (hnd : NodupIds st)
    (hroot : ParentNoneRoot st) (hseg : PathSegP st) (huniq : NameUniqP st)
    (fo po np : FolderRec) (hfo : fo ∈ st.folders) (hpo : po ∈ st.folders)
    (hnp : np ∈ st.folders) (hfopar : fo.parentId = some po.id)
    (hnppo : np.id ≠ po.id)
    (hrM : rankOkP (foldersProj { st with folders := st.folders.map (fun g =>
      if g.id = fo.id then { g with parentId := some np.id } else g) }) r2)
    (hnochildnp : ∀ g ∈ st.folders, g.parentId = some np.id → g.name ≠ fo.name)
    (st' : Store)
    (h : moveFolder now fuel st fo.id np.id = some (Except.ok st')) :
    PathSegP st' ∧ NameUniqP st' ∧
    (∀ g' ∈ st'.folders, DescP (foldersProj st') fo.id g'.id → ParentEqn st' g') ∧
    (∀ g ∈ st.folders, ¬ DescP (foldersProj st) fo.id g.id → g ∈ st'.folders) ∧
    (∀ d ∈ st.folders, DescP (foldersProj st) fo.id d.id →
      resolveFolderPath st' d.path = none) := by
  have hlkfo := lookupFolder_mem hnd hfo
  have hlknp := lookupFolder_mem hnd hnp
  simp only [moveFolder, hlkfo, hlknp] at h
  set stM : Store := { st with folders := st.folders.map (fun g =>
    if g.id = fo.id then { g with parentId := some np.id } else g) } with hstM
  clear_value stM
  cases hu : updatePathsRec now fuel stM fo.id np.path with
  | none => rw [hu] at h; simp at h
  | some s =>
    rw [hu] at h
    simp only [Option.map_some'] at h
    injection h with h2
    injection h2 with h3
    subst h3
    have hfoldersM : stM.folders = st.folders.map (fun g =>
        if g.id = fo.id then { g with parentId := some np.id } else g) := by
      rw [hstM]
    have hidsM : (st.folders.map (fun g =>
        if g.id = fo.id then { g with parentId := some np.id } else g)).map
          (fun f => f.id) = st.folders.map (fun f => f.id) :=
      ids_map_update (fun g => rfl)
    have hndM : NodupIds stM := by
      show (stM.folders.map (fun f => f.id)).Nodup
      rw [hfoldersM, hidsM]
      exact hnd
    have hedge : (fo.id, some po.id) ∈ foldersProj st :=
      List.mem_map.mpr ⟨fo, hfo, by rw [hfopar]⟩
    have hrpofo : r po.id < r fo.id := hr _ hedge po.id rfl
    have hpone : po.id ≠ fo.id := fun hpe => absurd (hpe ▸ hrpofo) (lt_irrefl _)
    have hf1M : ({ fo with parentId := some np.id } : FolderRec) ∈ stM.folders := by
      rw [hfoldersM]
      exact List.mem_map.mpr ⟨fo, hfo, by simp⟩
    have hedgeM : (fo.id, some np.id) ∈ foldersProj stM :=
      List.mem_map.mpr ⟨{ fo with parentId := some np.id }, hf1M, rfl⟩
    have hrnp : r2 np.id < r2 fo.id := hrM _ hedgeM np.id rfl
    have hnpfo : np.id ≠ fo.id := fun he => absurd (he ▸ hrnp) (lt_irrefl _)
    have hp1M : np ∈ stM.folders := by
      rw [hfoldersM]
      exact mem_map_update_of_ne hnp hnpfo
    have hfoseg : pathParts fo.name = [fo.name] := by
      obtain ⟨q, hq, hqid2, hparts⟩ := hseg fo hfo po.id hfopar
      exact pathParts_of_seg (show fo.name ∈ pathParts fo.path by rw [hparts]; simp)
    have hnamesM : ∀ f ∈ stM.folders, DescP (foldersProj stM) fo.id f.id →
        pathParts f.name = [f.name] := by
      intro f hf hdesc
      obtain ⟨g, hg, hcase⟩ := mem_map_update_cases (by rw [hfoldersM] at hf; exact hf)
      rcases hcase with ⟨hgid, heq⟩ | ⟨hgid, heq⟩
      · have hgfo : g = fo := mem_unique_key hnd hg hfo hgid
        have hfn : f.name = fo.name := by rw [heq, hgfo]
        rw [hfn]
        exact hfoseg
      · rw [heq] at hdesc ⊢
        cases Relation.ReflTransGen.cases_tail hdesc with
        | inl hh => exact absurd hh hgid
        | inr hh =>
          obtain ⟨c, _, hc⟩ := hh
          have hc' := hc
          rw [hstM] at hc'
          rcases proj_reparent_elim hc' with ⟨hgfid, _⟩ | ⟨_, hold⟩
          · exact absurd hgfid hgid
          · have hgpar : g.parentId = some c := parentId_of_proj hnd hg hold
            obtain ⟨q, hq, hqid2, hparts⟩ := hseg g hg c hgpar
            exact pathParts_of_seg (show g.name ∈ pathParts g.path by rw [hparts]; simp)
    have hrootM : ParentNoneRoot stM := by
      intro f hf hnone
      obtain ⟨g, hg, hcase⟩ := mem_map_update_cases (by rw [hfoldersM] at hf; exact hf)
      rcases hcase with ⟨hgid, heq⟩ | ⟨hgid, heq⟩
      · exfalso
        have hfp : f.parentId = some np.id := by rw [heq]
        rw [hfp] at hnone
        cases hnone
      · rw [heq] at hnone ⊢
        exact hroot g hg hnone
    have hsegOutM : ∀ f ∈ stM.folders, ¬ DescP (foldersProj stM) fo.id f.id →
        ∀ pid', f.parentId = some pid' →
        ∃ q ∈ stM.folders, q.id = pid' ∧
          pathParts f.path = pathParts q.path ++ [f.name] := by
      intro f hf hnotin pid' hpar'
      obtain ⟨g, hg, hcase⟩ := mem_map_update_cases (by rw [hfoldersM] at hf; exact hf)
      rcases hcase with ⟨hgid, heq⟩ | ⟨hgid, heq⟩
      · exfalso
        apply hnotin
        have hfid : f.id = fo.id := by rw [heq]; exact hgid
        rw [hfid]
        exact Relation.ReflTransGen.refl
      · rw [heq] at hpar' hnotin ⊢
        obtain ⟨q, hq, hqid2, hparts⟩ := hseg g hg pid' hpar'
        have hqne : q.id ≠ fo.id := by
          intro hqe
          apply hnotin
          have hgM : g ∈ stM.folders := by
            rw [hfoldersM]
            exact mem_map_update_of_ne hg hgid
          exact Relation.ReflTransGen.single
            (List.mem_map.mpr ⟨g, hgM, by
              rw [hpar', show pid' = fo.id from hqid2.symm.trans hqe]⟩)
        exact ⟨q, by rw [hfoldersM]; exact mem_map_update_of_ne hq hqne, hqid2, hparts⟩
    have huniqM : NameUniqP stM := by
      intro f hf g hg hparEq hnameEq
      obtain ⟨f0, hf0, hfc⟩ := mem_map_update_cases (by rw [hfoldersM] at hf; exact hf)
      obtain ⟨g0, hg0, hgc⟩ := mem_map_update_cases (by rw [hfoldersM] at hg; exact hg)
      rcases hfc with ⟨hf0id, hfeq⟩ | ⟨hf0id, hfeq⟩ <;>
        rcases hgc with ⟨hg0id, hgeq⟩ | ⟨hg0id, hgeq⟩
      · have h1 : f.id = fo.id := by rw [hfeq]; exact hf0id
        have h2 : g.id = fo.id := by rw [hgeq]; exact hg0id
        rw [h1, h2]
      · exfalso
        have hf0fo : f0 = fo := mem_unique_key hnd hf0 hfo hf0id
        have hgpar : g0.parentId = some np.id := by
          have hfp : f.parentId = some np.id := by rw [hfeq]
          have hgp : g.parentId = g0.parentId := by rw [hgeq]
          rw [← hgp, ← hparEq, hfp]
        have hgname : g0.name = fo.name := by
          have hfn : f.name = fo.name := by rw [hfeq, hf0fo]
          have hgn : g.name = g0.name := by rw [hgeq]
          rw [← hgn, ← hnameEq, hfn]
        exact hnochildnp g0 hg0 hgpar hgname
      · exfalso
        have hg0fo : g0 = fo := mem_unique_key hnd hg0 hfo hg0id
        have hfpar : f0.parentId = some np.id := by
          have hgp : g.parentId = some np.id := by rw [hgeq]
          have hfp : f.parentId = f0.parentId := by rw [hfeq]
          rw [← hfp, hparEq, hgp]
        have hfname : f0.name = fo.name := by
          have hgn : g.name = fo.name := by rw [hgeq, hg0fo]
          have hfn : f.name = f0.name := by rw [hfeq]
          rw [← hfn, hnameEq, hgn]
        exact hnochildnp f0 hf0 hfpar hfname
      · have hfp : f.parentId = f0.parentId := by rw [hfeq]
        have hgp : g.parentId = g0.parentId := by rw [hgeq]
        have hfn : f.name = f0.name := by rw [hfeq]
        have hgn : g.name = g0.name := by rw [hgeq]
        have hids := huniq f0 hf0 g0 hg0 (by rw [← hfp, ← hgp, hparEq])
          (by rw [← hfn, ← hgn, hnameEq])
        have h1 : f.id = f0.id := by rw [hfeq]
        have h2 : g.id = g0.id := by rw [hgeq]
        rw [h1, h2, hids]
    obtain ⟨hr', hnd', hroot', hseg', huniq', hout', hin'⟩ :=
      updatePathsRec_WF now fuel stM s fo.id np.path hu hrM hndM
        { fo with parentId := some np.id } hf1M rfl np hp1M rfl rfl
        hnamesM hrootM hsegOutM huniqM
    have hmetaM := (updatePathsRec_meta now fuel stM fo.id np.path s hu).1
    have hprojS : foldersProj s = foldersProj stM := foldersProj_of_meta hmetaM
    refine ⟨hseg', huniq', ?_, ?_, ?_⟩
    · intro g' hg' hdesc
      rw [hprojS] at hdesc
      exact hin' g' hg' hdesc
    · intro g hg hnotin
      have hgne : g.id ≠ fo.id := fun hge =>
        hnotin (by rw [hge]; exact Relation.ReflTransGen.refl)
      apply hout' g (by rw [hfoldersM]; exact mem_map_update_of_ne hg hgne)
      intro hdM
      rw [hstM] at hdM
      rcases desc_reparent hdM with hpe | hdesc
      · exact hgne hpe
      · exact hnotin hdesc
    · intro d hd hdd
      obtain ⟨rest, hparts⟩ := subtree_parts_prefix hr hnd hseg fo po hfo hpo hfopar
        (r d.id) d hd (le_refl _) hdd
      have hpoM : po ∈ stM.folders := by
        rw [hfoldersM]
        exact mem_map_update_of_ne hpo hpone
      have hposurv : po ∈ s.folders := by
        apply hout' po hpoM
        intro hdM
        rw [hstM] at hdM
        rcases desc_reparent hdM with hpe | hdesc
        · exact hpone hpe
        · exact (not_descP_of_rank_lt hr hrpofo) hdesc
      have hnochild : ∀ g' ∈ s.folders, g'.parentId = some po.id →
          g'.name ≠ fo.name := by
        intro g' hg' hg'par
        obtain ⟨g1, hg1, hg1id, hg1par, hg1name⟩ := record_of_meta hmetaM hg'
        obtain ⟨g0, hg0, hcase⟩ := mem_map_update_cases
          (by rw [hfoldersM] at hg1; exact hg1)
        rcases hcase with ⟨hg0id, heq⟩ | ⟨hg0id, heq⟩
        · exfalso
          have e1 : g1.parentId = some np.id := by rw [heq]
          have e2 : some po.id = some np.id := by rw [← hg'par, ← hg1par, e1]
          exact hnppo (Option.some.inj e2).symm
        · intro hcontr
          have h1 : g0.parentId = some po.id := by
            have e1 : g1.parentId = g0.parentId := by rw [heq]
            rw [← e1, hg1par, hg'par]
          have h2 : g0.name = fo.name := by
            have e2 : g1.name = g0.name := by rw [heq]
            rw [← e2, hg1name, hcontr]
          exact hg0id (huniq g0 hg0 fo hfo (by rw [h1, hfopar]) h2)
      have hres := resolve_fails_below hr' hnd' hroot' hseg' huniq' po hposurv
        fo.name hnochild rest
      show resolveFolderPath s d.path = none
      unfold resolveFolderPath
      rw [hparts]
      exact hres

/-- **C2.** After `renameFolder(id, newName)` (with a well-formed new name
that no sibling carries) or `moveFolder(id, newParentId)` (to a different,
acyclicity-certified parent with no name clash) on a well-formed store,
every folder in the affected subtree satisfies
`path = parentFolder.path ++ "/" ++ name` and the global segment-wise path
invariant and sibling-name uniqueness are preserved; folders outside the
subtree keep their exact records; and resolving any subtree member's old
path fails. -/
theorem c2_rename_move_subtree_paths
    (now fuel : Nat) (st : Store) (r : String → Nat)
    (hr : rankOkP (foldersProj st) r) (hnd : NodupIds st)
    (hroot : ParentNoneRoot st) (hseg : PathSegP st) (huniq : NameUniqP st)
    (fo po : FolderRec) (hfo : fo ∈ st.folders) (hpo : po ∈ st.folders)
    (hfopar : fo.parentId = some po.id) :
    (∀ (newName : String) (st' : Store), newName ≠ "" → '/' ∉ newName.data →
      (∀ g ∈ st.folders, g.parentId = some po.id → g.name ≠ newName) →
      renameFolder now fuel st fo.id newName = some (Except.ok st') →
      PathSegP st' ∧ NameUniqP st' ∧
      (∀ g' ∈ st'.folders, DescP (foldersProj st') fo.id g'.id →
        ParentEqn st' g') ∧
      (∀ g ∈ st.folders, ¬ DescP (foldersProj st) fo.id g.id →
        g ∈ st'.folders) ∧
      (∀ d ∈ st.folders, DescP (foldersProj st) fo.id d.id →
        resolveFolderPath st' d.path = none)) ∧
    (∀ (np : FolderRec) (r2 : String → Nat) (st' : Store),
      np ∈ st.folders → np.id ≠ po.id →
      rankOkP (foldersProj { st with folders := st.folders.map (fun g =>
        if g.id = fo.id then { g with parentId := some np.id } else g) }) r2 →
      (∀ g ∈ st.folders, g.parentId = some np.id → g.name ≠ fo.name) →
      moveFolder now fuel st fo.id np.id = some (Except.ok st') →
      PathSegP st' ∧ NameUniqP st' ∧
      (∀ g' ∈ st'.folders, DescP (foldersProj st') fo.id g'.id →
        ParentEqn st' g') ∧
      (∀ g ∈ st.folders, ¬ DescP (foldersProj st) fo.id g.id →
        g ∈ st'.folders) ∧
      (∀ d ∈ st.folders, DescP (foldersProj st) fo.id d.id →
        resolveFolderPath st' d.path = none)) := by
  constructor
  · intro newName st' hnn hns hnosib h
    exact renameFolder_paths now fuel st r hr hnd hroot hseg huniq fo po hfo hpo
      hfopar newName st' hnn hns hnosib h
  · intro np r2 st' hnp hnppo hrM hnochildnp h
    exact moveFolder_paths now fuel st r r2 hr hnd hroot hseg huniq fo po np
      hfo hpo hnp hfopar hnppo hrM hnochildnp st' h

theorem foldlM_error_frozen
    {step : Except String Store → String → Option (Except String Store)}
    (hstepErr : ∀ e c, step (Except.error e) c = some (Except.error e))
    (e : String) :
    ∀ l : List String, l.foldlM step (Except.error e) = some (Except.error e) := by
  intro l
  induction l with
  | nil => rfl
  | cons c l ih =>
    simp only [List.foldlM_cons, hstepErr]
    exact ih

theorem descP_mono {prs prs2 : List (String × Option String)}
    (hsub : ∀ x ∈ prs, x ∈ prs2) {a b : String} (h : DescP prs a b) :
    DescP prs2 a b :=
  Relation.ReflTransGen.mono (fun _ _ hxy => hsub _ hxy) h

/-- Lifting a subtree walk from the original store into a store whose
folders are exactly the original records satisfying `P` on their IDs. -/
theorem desc_transfer_filter {st acc : Store} {P : String → Prop} {c : String}
    (hacc : ∀ g : FolderRec, g ∈ acc.folders ↔ (g ∈ st.folders ∧ P g.id))
    (hP : ∀ y, DescP (foldersProj st) c y → P y) :
    ∀ x, DescP (foldersProj st) c x → DescP (foldersProj acc) c x := by
  intro x h
  induction h with
  | refl => exact Relation.ReflTransGen.refl
  | tail hb hrel ih =>
    obtain ⟨gx, hgx, hgxid, hgxpar⟩ := record_of_proj hrel
    have hgxid' : gx.id = _ := hgxid
    have hgacc : gx ∈ acc.folders := (hacc gx).mpr ⟨hgx, by
      rw [hgxid']
      exact hP _ (Relation.ReflTransGen.tail hb hrel)⟩
    exact Relation.ReflTransGen.tail ih
      (List.mem_map.mpr ⟨gx, hgacc, by rw [hgxid', hgxpar]⟩)

/-- Exactness of recursive deletion: `deleteFolder(fid, true)` keeps
precisely the folder records outside the subtree of `fid` (and keeps them
in their original relative order). -/
theorem deleteFolder_true_exact (r : String → Nat) :
    ∀ (fuel : Nat) (st : Store) (fid : String) (st' : Store),
      rankOkP (foldersProj st) r → NodupIds st →
      deleteFolder fuel st fid true = some (Except.ok st') →
      st'.folders.Sublist st.folders ∧
      (∀ g : FolderRec, g ∈ st'.folders ↔
        (g ∈ st.folders ∧ ¬ DescP (foldersProj st) fid g.id)) := by
  intro fuel
  induction fuel with
  | zero => intro st fid st' _ _ h; cases h
  | succ fuel ih =>
    intro st fid st' hr hnd h
    simp only [deleteFolder] at h
    rw [if_neg (by simp)] at h
    have hndp : ((foldersProj st).map Prod.fst).Nodup := by
      have heq : (foldersProj st).map Prod.fst = st.folders.map (fun f => f.id) := by
        simp [foldersProj, List.map_map, Function.comp]
      rw [heq]
      exact hnd
    have hchild_rel : ∀ c ∈ (st.folders.filter
        (fun f => decide (f.parentId = some fid))).map (fun f => f.id),
        childRelP (foldersProj st) fid c := by
      intro c hc
      simp only [List.mem_map, List.mem_filter, decide_eq_true_eq] at hc
      obtain ⟨f, ⟨hf, hpar⟩, rfl⟩ := hc
      exact List.mem_map.mpr ⟨f, hf, by rw [hpar]⟩
    have hchild_nodup : ((st.folders.filter
        (fun f => decide (f.parentId = some fid))).map (fun f => f.id)).Nodup :=
      ((List.filter_sublist _).map _).nodup hnd
    have foldLemma : ∀ (step : Except String Store → String →
        Option (Except String Store)),
        (∀ e c, step (Except.error e) c = some (Except.error e)) →
        (∀ s c, step (Except.ok s) c = deleteFolder fuel s c true) →
        ∀ (l : List String) (D : String → Prop) (s res : Store),
        (∀ c ∈ l, childRelP (foldersProj st) fid c) → l.Nodup →
        (∀ c ∈ l, ∀ gid, DescP (foldersProj st) c gid → ¬ D gid) →
        s.folders.Sublist st.folders →
        (∀ g : FolderRec, g ∈ s.folders ↔ (g ∈ st.folders ∧ ¬ D g.id)) →
        l.foldlM step (Except.ok s) = some (Except.ok res) →
        res.folders.Sublist st.folders ∧
        (∀ g : FolderRec, g ∈ res.folders ↔
          (g ∈ st.folders ∧ ¬ D g.id ∧
            ¬ ∃ c ∈ l, DescP (foldersProj st) c g.id)) := by
      intro step hstepErr hstepOk l
      induction l with
      | nil =>
        intro D s res _ _ _ hsub hiff hfold
        simp only [List.foldlM_nil] at hfold
        cases hfold
        refine ⟨hsub, fun g => ?_⟩
        rw [hiff g]
        constructor
        · rintro ⟨h1, h2⟩
          exact ⟨h1, h2, by rintro ⟨c, hc, _⟩; exact absurd hc (List.not_mem_nil c)⟩
        · rintro ⟨h1, h2, _⟩
          exact ⟨h1, h2⟩
      | cons c l ihl =>
        intro D s res hrel hndl hdisj hsub hiff hfold
        simp only [List.foldlM_cons, hstepOk] at hfold
        cases hstep : deleteFolder fuel s c true with
        | none => rw [hstep] at hfold; simp at hfold
        | some exc =>
          cases exc with
          | error e =>
            rw [hstep] at hfold
            have hfold2 : l.foldlM step (Except.error e) =
                some (Except.ok res) := hfold
            rw [foldlM_error_frozen hstepErr e l] at hfold2
            simp at hfold2
          | ok s1 =>
            rw [hstep] at hfold
            have hrel_c := hrel c (List.mem_cons_self c l)
            have hrs : rankOkP (foldersProj s) r := fun pr hpr pid hpid =>
              hr pr ((hsub.map _).subset hpr) pid hpid
            have hnds : NodupIds s := (hsub.map _).nodup hnd
            obtain ⟨hsub1, hiff1⟩ := ih s c s1 hrs hnds hstep
            have hPsub : ∀ y, DescP (foldersProj st) c y → ¬ D y :=
              fun y hy => hdisj c (List.mem_cons_self c l) y hy
            have hto : ∀ x, DescP (foldersProj st) c x →
                DescP (foldersProj s) c x := by
              intro x hx
              refine desc_transfer_filter ?_ hPsub x hx
              intro g
              rw [hiff g]
            have hfrom : ∀ x, DescP (foldersProj s) c x →
                DescP (foldersProj st) c x :=
              fun x hx => descP_mono (fun y hy => (hsub.map _).subset hy) hx
            have hiff1' : ∀ g : FolderRec, g ∈ s1.folders ↔
                (g ∈ st.folders ∧
                  ¬ (D g.id ∨ DescP (foldersProj st) c g.id)) := by
              intro g
              rw [hiff1 g, hiff g]
              constructor
              · rintro ⟨⟨h1, h2⟩, h3⟩
                refine ⟨h1, ?_⟩
                rintro (hD | hDc)
                · exact h2 hD
                · exact h3 (hto _ hDc)
              · rintro ⟨h1, h2⟩
                exact ⟨⟨h1, fun hD => h2 (Or.inl hD)⟩,
                  fun hDs => h2 (Or.inr (hfrom _ hDs))⟩
            have hdisj' : ∀ c2 ∈ l, ∀ gid, DescP (foldersProj st) c2 gid →
                ¬ (D gid ∨ DescP (foldersProj st) c gid) := by
              intro c2 hc2 gid hdesc
              rintro (hD | hDc)
              · exact hdisj c2 (List.mem_cons_of_mem c hc2) gid hdesc hD
              · have hne : c ≠ c2 := fun hcc =>
                  (List.nodup_cons.mp hndl).1 (by rw [hcc]; exact hc2)
                exact sibling_subtrees_disjoint hr hndp hrel_c
                  (hrel c2 (List.mem_cons_of_mem c hc2)) hne hDc hdesc
            obtain ⟨hsubres, hiffres⟩ := ihl
              (fun gid => D gid ∨ DescP (foldersProj st) c gid) s1 res
              (fun c2 hc2 => hrel c2 (List.mem_cons_of_mem c hc2))
              (List.nodup_cons.mp hndl).2 hdisj' (hsub1.trans hsub) hiff1' hfold
            refine ⟨hsubres, fun g => ?_⟩
            rw [hiffres g]
            constructor
            · rintro ⟨h1, h2, h3⟩
              refine ⟨h1, fun hD => h2 (Or.inl hD), ?_⟩
              rintro ⟨c2, hc2, hd2⟩
              rcases List.mem_cons.mp hc2 with rfl | hc2l
              · exact h2 (Or.inr hd2)
              · exact h3 ⟨c2, hc2l, hd2⟩
            · rintro ⟨h1, h2, h3⟩
              refine ⟨h1, ?_, ?_⟩
              · rintro (hD | hDc)
                · exact h2 hD
                · exact h3 ⟨c, List.mem_cons_self c l, hDc⟩
              · rintro ⟨c2, hc2, hd2⟩
                exact h3 ⟨c2, List.mem_cons_of_mem c hc2, hd2⟩
    split at h
    · cases h
    · simp at h
    · rename_i st2 heq
      injection h with h2
      injection h2 with h3
      subst h3
      obtain ⟨hsub2, hiff2⟩ := foldLemma _ (fun _ _ => rfl) (fun _ _ => rfl) _
        (fun _ => False) st st2 hchild_rel hchild_nodup
        (fun _ _ _ _ hF => hF) (List.Sublist.refl _) (fun g => by simp) heq
      constructor
      · exact (List.filter_sublist _).trans hsub2
      · intro g
        constructor
        · intro hg
          obtain ⟨hg2, hgneb⟩ := List.mem_filter.mp hg
          have hgne : ¬ g.id = fid := by simpa using hgneb
          obtain ⟨hgst, _, hnosub⟩ := (hiff2 g).mp hg2
          refine ⟨hgst, ?_⟩
          intro hdesc
          cases Relation.ReflTransGen.cases_head hdesc with
          | inl hh => exact hgne hh.symm
          | inr hh =>
            obtain ⟨c, hcrel, hcdesc⟩ := hh
            exact hnosub ⟨c, mem_childIds hcrel, hcdesc⟩
        · rintro ⟨hgst, hnodesc⟩
          have hgne : ¬ g.id = fid := fun hge =>
            hnodesc (by rw [hge]; exact Relation.ReflTransGen.refl)
          have hnosub : ¬ ∃ c ∈ (st.folders.filter
              (fun f => decide (f.parentId = some fid))).map (fun f => f.id),
              DescP (foldersProj st) c g.id := by
            rintro ⟨c, hcmem, hcdesc⟩
            exact hnodesc (Relation.ReflTransGen.head (hchild_rel c hcmem) hcdesc)
          have hg2 : g ∈ st2.folders :=
            (hiff2 g).mpr ⟨hgst, fun hF => hF, hnosub⟩
          exact List.mem_filter.mpr ⟨hg2, by simp [hgne]⟩

/-- **C3 (amended).** `deleteFolder`'s guard counts only child *folders*:
with `recursive = false` it throws `'Folder not empty'` (before deleting
anything) exactly when the folder has at least one child folder, and when
the folder has no child folders it deletes the folder together with its
files even though file children exist.  With `recursive = true` the whole
subtree is removed: records outside the subtree survive verbatim, no
subtree member remains, and resolution of every subtree member's old path
returns not-found. -/
theorem c3_amended_delete (st : Store) (r : String → Nat)
    (hr : rankOkP (foldersProj st) r) (hnd : NodupIds st)
    (hroot : ParentNoneRoot st) (hseg : PathSegP st) (huniq : NameUniqP st)
    (fo po : FolderRec) (hfo : fo ∈ st.folders) (hpo : po ∈ st.folders)
    (hfopar : fo.parentId = some po.id) :
    (∀ fuel : Nat, (∃ g ∈ st.folders, g.parentId = some fo.id) →
      deleteFolder (fuel + 1) st fo.id false =
        some (Except.error "Folder not empty")) ∧
    (st.folders.filter (fun f => decide (f.parentId = some fo.id)) = [] →
      ∀ fuel : Nat, deleteFolder (fuel + 1) st fo.id false =
        some (Except.ok { st with
          files := st.files.filter (fun f => decide (¬ f.parentId = fo.id)),
          folders := st.folders.filter (fun f => decide (¬ f.id = fo.id)) })) ∧
    (∀ (fuel : Nat) (st' : Store),
      deleteFolder fuel st fo.id true = some (Except.ok st') →
      (∀ g ∈ st.folders, ¬ DescP (foldersProj st) fo.id g.id →
        g ∈ st'.folders) ∧
      (∀ g' ∈ st'.folders, ¬ DescP (foldersProj st) fo.id g'.id) ∧
      (∀ d ∈ st.folders, DescP (foldersProj st) fo.id d.id →
        resolveFolderPath st' d.path = none)) := by
  refine ⟨?_, ?_, ?_⟩
  · rintro fuel ⟨g, hg, hgpar⟩
    have hmem : g.id ∈ (st.folders.filter
        (fun f => decide (f.parentId = some fo.id))).map (fun f => f.id) :=
      List.mem_map.mpr ⟨g, List.mem_filter.mpr ⟨hg, by simp [hgpar]⟩, rfl⟩
    have hcond : ¬ (false = true) ∧ (st.folders.filter
        (fun f => decide (f.parentId = some fo.id))).map (fun f => f.id) ≠ [] :=
      ⟨by simp, fun hnil => absurd (hnil ▸ hmem) (List.not_mem_nil _)⟩
    simp only [deleteFolder]
    rw [if_pos hcond]
  · intro hempty fuel
    simp only [deleteFolder]
    rw [hempty]
    rfl
  · intro fuel st' hdel
    obtain ⟨hsub', hiff'⟩ := deleteFolder_true_exact r fuel st fo.id st' hr hnd hdel
    refine ⟨fun g hg hout => (hiff' g).mpr ⟨hg, hout⟩,
      fun g' hg' => ((hiff' g').mp hg').2, ?_⟩
    intro d hd hdd
    have hr' : rankOkP (foldersProj st') r := fun pr hpr pid hpid =>
      hr pr ((hsub'.map _).subset hpr) pid hpid
    have hnd' : NodupIds st' := (hsub'.map _).nodup hnd
    have hroot' : ParentNoneRoot st' := fun f hf hn =>
      hroot f ((hiff' f).mp hf).1 hn
    have huniq' : NameUniqP st' := fun f hf g hg hp hn =>
      huniq f ((hiff' f).mp hf).1 g ((hiff' g).mp hg).1 hp hn
    have hseg' : PathSegP st' := by
      intro f hf pid hpar
      obtain ⟨hfst, hfout⟩ := (hiff' f).mp hf
      obtain ⟨q, hq, hqid, hparts⟩ := hseg f hfst pid hpar
      have hqout : ¬ DescP (foldersProj st) fo.id q.id := by
        intro hdq
        apply hfout
        exact Relation.ReflTransGen.tail hdq
          (List.mem_map.mpr ⟨f, hfst, by rw [hpar, hqid]⟩)
      exact ⟨q, (hiff' q).mpr ⟨hq, hqout⟩, hqid, hparts⟩
    obtain ⟨rest, hparts⟩ := subtree_parts_prefix hr hnd hseg fo po hfo hpo hfopar
      (r d.id) d hd (le_refl _) hdd
    have hedge : (fo.id, some po.id) ∈ foldersProj st :=
      List.mem_map.mpr ⟨fo, hfo, by rw [hfopar]⟩
    have hrpofo : r po.id < r fo.id := hr _ hedge po.id rfl
    have hposurv : po ∈ st'.folders :=
      (hiff' po).mpr ⟨hpo, not_descP_of_rank_lt hr hrpofo⟩
    have hnochild : ∀ g' ∈ st'.folders, g'.parentId = some po.id →
        g'.name ≠ fo.name := by
      intro g' hg' hg'par hcontr
      obtain ⟨hg'st, hg'out⟩ := (hiff' g').mp hg'
      have hsame : g'.id = fo.id :=
        huniq g' hg'st fo hfo (by rw [hg'par, hfopar]) hcontr
      exact hg'out (by rw [hsame]; exact Relation.ReflTransGen.refl)
    have hres := resolve_fails_below hr' hnd' hroot' hseg' huniq' po hposurv
      fo.name hnochild rest
    show resolveFolderPath st' d.path = none
    unfold resolveFolderPath
    rw [hparts]
    exact hres

/-- Store with one folder `/X` whose only child is a *file*. -/
def c3Store : Store :=
  { folders := [⟨"0", none, "", "/", none, 0⟩,
                ⟨"fld_1", some "0", "X", "/X", none, 0⟩],
    files := [⟨"fil_1", "fld_1", "a.txt", 1, [65], 0⟩],
    collaborations := [] }

def c3After : Store :=
  { folders := [⟨"0", none, "", "/", none, 0⟩], files := [],
    collaborations := [] }

/-- C3 counterexample: `/X` has a child (the file `a.txt`), yet
`deleteFolder("fld_1", recursive := false)` does **not** fail — it deletes
the folder and its file, because the non-empty guard only looks at child
folders.  The claim that any child (file or folder) triggers the failure
is false. -/
theorem c3_counterexample :
    c3Store.files.filter (fun f => decide (f.parentId = "fld_1")) ≠ [] ∧
    deleteFolder 5 c3Store "fld_1" false = some (Except.ok c3After) ∧
    lookupFolder c3After "fld_1" = none ∧
    c3After.files = [] ∧
    resolveFolderPath c3Store "/X" = some "fld_1" ∧
    resolveFolderPath c3After "/X" = none := by
  exact ⟨by decide, by rfl, by decide, by decide, by decide, by decide⟩

/-- Store `/A`, `/A/B` plus a file under `/A/B` for exercising the amended
delete contract. -/
def c3WStore : Store :=
  { folders := [⟨"0", none, "", "/", none, 0⟩,
                ⟨"fld_1", some "0", "A", "/A", none, 0⟩,
                ⟨"fld_2", some "fld_1", "B", "/A/B", none, 0⟩],
    files := [⟨"fil_1", "fld_2", "n.txt", 1, [65], 0⟩],
    collaborations := [] }

def c3WRoot : FolderRec := ⟨"0", none, "", "/", none, 0⟩

def c3WA : FolderRec := ⟨"fld_1", some "0", "A", "/A", none, 0⟩

def c3WB : FolderRec := ⟨"fld_2", some "fld_1", "B", "/A/B", none, 0⟩

def c3Rank : String → Nat := fun sid =>
  if sid = "0" then 0 else if sid = "fld_1" then 1
  else if sid = "fld_2" then 2 else 9

/-- `c3WStore` after `deleteFolder("fld_2", false)` (the file-only folder
is deleted together with its file). -/
def c3WDelB : Store :=
  { folders := [⟨"0", none, "", "/", none, 0⟩,
                ⟨"fld_1", some "0", "A", "/A", none, 0⟩],
    files := [], collaborations := [] }

/-- `c3WStore` after `deleteFolder("fld_1", true)`. -/
def c3WAfter : Store :=
  { folders := [⟨"0", none, "", "/", none, 0⟩], files := [],
    collaborations := [] }

theorem c3_amended_delete_witness :
    deleteFolder 6 c3WStore "fld_1" false =
      some (Except.error "Folder not empty") ∧
    deleteFolder 6 c3WStore "fld_2" false = some (Except.ok c3WDelB) ∧
    deleteFolder 6 c3WStore "fld_1" true = some (Except.ok c3WAfter) ∧
    resolveFolderPath c3WAfter "/A" = none ∧
    resolveFolderPath c3WAfter "/A/B" = none := by
  have H := c3_amended_delete c3WStore c3Rank (rankOkP_of_B (by decide))
    (by unfold NodupIds; decide) (by unfold ParentNoneRoot; decide)
    (pathSegP_of_B (by decide)) (by unfold NameUniqP; decide)
    c3WA c3WRoot (by decide) (by decide) rfl
  have H2 := c3_amended_delete c3WStore c3Rank (rankOkP_of_B (by decide))
    (by unfold NodupIds; decide) (by unfold ParentNoneRoot; decide)
    (pathSegP_of_B (by decide)) (by unfold NameUniqP; decide)
    c3WB c3WA (by decide) (by decide) rfl
  have hdel : deleteFolder 6 c3WStore "fld_1" true =
      some (Except.ok c3WAfter) := by rfl
  have hC := H.2.2 6 c3WAfter hdel
  refine ⟨?_, ?_, hdel, ?_, ?_⟩
  · exact H.1 5 ⟨c3WB, by decide, rfl⟩
  · exact H2.2.1 (by decide) 5
  · exact hC.2.2 c3WA (by decide) Relation.ReflTransGen.refl
  · exact hC.2.2 c3WB (by decide)
      (Relation.ReflTransGen.single
        (show ((("fld_2" : String), some "fld_1") : String × Option String) ∈
          foldersProj c3WStore by decide))

/-- Concrete store `/A`, `/A/B`, `/A/B/C`, `/D` for exercising C2. -/
def c2Store : Store :=
  { folders := [⟨"0", none, "", "/", none, 0⟩,
                ⟨"fld_1", some "0", "A", "/A", none, 0⟩,
                ⟨"fld_2", some "fld_1", "B", "/A/B", none, 0⟩,
                ⟨"fld_3", some "fld_2", "C", "/A/B/C", none, 0⟩,
                ⟨"fld_4", some "0", "D", "/D", none, 0⟩],
    files := [], collaborations := [] }

def c2B : FolderRec := ⟨"fld_2", some "fld_1", "B", "/A/B", none, 0⟩

def c2A : FolderRec := ⟨"fld_1", some "0", "A", "/A", none, 0⟩

def c2C : FolderRec := ⟨"fld_3", some "fld_2", "C", "/A/B/C", none, 0⟩

def c2D : FolderRec := ⟨"fld_4", some "0", "D", "/D", none, 0⟩

def c2Rank : String → Nat := fun sid =>
  if sid = "0" then 0 else if sid = "fld_1" then 1
  else if sid = "fld_2" then 2 else if sid = "fld_3" then 3
  else if sid = "fld_4" then 1 else 9

def c2RankM : String → Nat := fun sid =>
  if sid = "0" then 0 else if sid = "fld_4" then 1
  else if sid = "fld_1" then 1 else if sid = "fld_2" then 2
  else if sid = "fld_3" then 3 else 9

/-- `c2Store` after `renameFolder("fld_2", "X")` at time 7. -/
def c2RenStore : Store :=
  { folders := [⟨"0", none, "", "/", none, 0⟩,
                ⟨"fld_1", some "0", "A", "/A", none, 0⟩,
                ⟨"fld_2", some "fld_1", "X", "/A/X", none, 7⟩,
                ⟨"fld_3", some "fld_2", "C", "/A/X/C", none, 7⟩,
                ⟨"fld_4", some "0", "D", "/D", none, 0⟩],
    files := [], collaborations := [] }

/-- `c2Store` after `moveFolder("fld_2", "fld_4")` at time 7. -/
def c2MovStore : Store :=
  { folders := [⟨"0", none, "", "/", none, 0⟩,
                ⟨"fld_1", some "0", "A", "/A", none, 0⟩,
                ⟨"fld_2", some "fld_4", "B", "/D/B", none, 7⟩,
                ⟨"fld_3", some "fld_2", "C", "/D/B/C", none, 7⟩,
                ⟨"fld_4", some "0", "D", "/D", none, 0⟩],
    files := [], collaborations := [] }

theorem c2_rename_move_subtree_paths_witness :
    renameFolder 7 9 c2Store "fld_2" "X" = some (Except.ok c2RenStore) ∧
    moveFolder 7 9 c2Store "fld_2" "fld_4" = some (Except.ok c2MovStore) ∧
    resolveFolderPath c2Store "/A/B/C" = some "fld_3" ∧
    resolveFolderPath c2RenStore "/A/B/C" = none ∧
    resolveFolderPath c2MovStore "/A/B/C" = none := by
  have hren : renameFolder 7 9 c2Store "fld_2" "X" =
      some (Except.ok c2RenStore) := by rfl
  have hmov : moveFolder 7 9 c2Store "fld_2" "fld_4" =
      some (Except.ok c2MovStore) := by rfl
  have hdesc1 : DescP (foldersProj c2Store) c2B.id c2C.id :=
    Relation.ReflTransGen.single
      (show ((("fld_3" : String), some "fld_2") : String × Option String) ∈
        foldersProj c2Store by decide)
  have H := c2_rename_move_subtree_paths 7 9 c2Store c2Rank
    (rankOkP_of_B (by decide)) (by unfold NodupIds; decide)
    (by unfold ParentNoneRoot; decide)
    (pathSegP_of_B (by decide)) (by unfold NameUniqP; decide)
    c2B c2A (by decide) (by decide) rfl
  refine ⟨hren, hmov, by decide, ?_, ?_⟩
  · exact (H.1 "X" c2RenStore (by decide) (by decide) (by decide) hren).2.2.2.2
      c2C (by decide) hdesc1
  · exact (H.2 c2D c2RankM c2MovStore (by decide) (by decide)
      (rankOkP_of_B (by decide)) (by decide) hmov).2.2.2.2
      c2C (by decide) hdesc1

end BoxMcp
